import Mathlib

/-!
Shallow embedding of the zebra-viz backend (src/server/index.ts and
src/backend/src/server.ts): the derived-statistics engine
(haversineDistanceMiles, computeTotalMiles, computeMostCommonTeams,
computeDaysWorkedStreak) and the two HTTP handlers, together with the
theorems checking the specification's claims about them.

Modelling conventions:
* JavaScript `number` is modelled by `ℝ` for the haversine arithmetic and by
  `ℤ`/`ℚ` where the code only manipulates millisecond timestamps and day
  counts (all exactly representable in float64 for realistic data).
* `new Date(s).getTime()` is modelled by `getTimeMs : String → Option ℤ`,
  `none` standing for the `NaN` of an invalid date.  The source relies on the
  ECMAScript parser; per the repository's data model (spec §3) date strings
  are ISO `YYYY-MM-DD`, so the model accepts exactly the strict 10-character
  ISO calendar-date format and rejects everything else.
* `Array.prototype.sort` (stable since ES2019) is modelled by a stable
  insertion sort parameterised by the boolean "may come before" relation
  derived from the comparator; a comparator returning `NaN` is treated as `0`
  (equal), as specified by ECMAScript's SortCompare.
* JavaScript object key enumeration (`Object.entries`) is modelled as
  insertion order, which is exact for non-integer-like team names.
-/

/-- JS `Math.round`: round half up, `⌊x + 1/2⌋`. -/
noncomputable def jsRound (x : ℝ) : ℤ := ⌊x + 1 / 2⌋

/-! ### Calendar arithmetic (proleptic Gregorian, as implemented by ECMAScript
`Date` for ISO date strings) -/

/-- Gregorian leap-year test. -/
def isLeap (y : ℕ) : Bool := (y % 4 == 0 && y % 100 != 0) || y % 400 == 0

/-- Number of days in month `m` (1–12) of a (non-)leap year. -/
def daysInMonth (leap : Bool) (m : ℕ) : ℕ :=
  match m with
  | 1 => 31
  | 2 => if leap then 29 else 28
  | 3 => 31
  | 4 => 30
  | 5 => 31
  | 6 => 30
  | 7 => 31
  | 8 => 31
  | 9 => 30
  | 10 => 31
  | 11 => 30
  | 12 => 31
  | _ => 0

/-- Days in year `y` before the first day of month `m`. -/
def daysBeforeMonth (leap : Bool) (m : ℕ) : ℕ :=
  match m with
  | 1 => 0
  | 2 => 31
  | 3 => 59 + (if leap then 1 else 0)
  | 4 => 90 + (if leap then 1 else 0)
  | 5 => 120 + (if leap then 1 else 0)
  | 6 => 151 + (if leap then 1 else 0)
  | 7 => 181 + (if leap then 1 else 0)
  | 8 => 212 + (if leap then 1 else 0)
  | 9 => 243 + (if leap then 1 else 0)
  | 10 => 273 + (if leap then 1 else 0)
  | 11 => 304 + (if leap then 1 else 0)
  | 12 => 334 + (if leap then 1 else 0)
  | _ => 0

/-- Number of leap years in `[0, y)`. -/
def leapsBefore (y : ℕ) : ℕ := (y + 3) / 4 + (y + 399) / 400 - (y + 99) / 100

/-- Days from 0000-01-01 to the first day of year `y` (proleptic Gregorian). -/
def daysBeforeYear (y : ℕ) : ℕ := 365 * y + leapsBefore y

/-- Epoch days of the civil date `y-m-d`: days since 1970-01-01
(719528 = `daysBeforeYear 1970`). -/
def toDays (y m d : ℕ) : ℤ :=
  (daysBeforeYear y : ℤ) + (daysBeforeMonth (isLeap y) m : ℤ) + (d : ℤ) - 1 - 719528

/-- Component validity of a civil date, as enforced by the ECMAScript ISO
date parser. -/
def validDate (y m d : ℕ) : Bool :=
  1 ≤ m && m ≤ 12 && 1 ≤ d && d ≤ daysInMonth (isLeap y) m

/-- Decimal digit test on a character. -/
def isDigitCh (c : Char) : Bool := 48 ≤ c.toNat && c.toNat ≤ 57

/-- Numeric value of a list of decimal digit characters. -/
def toNum (cs : List Char) : ℕ := cs.foldl (fun n c => n * 10 + (c.toNat - 48)) 0

/-- Parse of an ISO `YYYY-MM-DD` date string to epoch days, modelling
`new Date(s)`: `none` is JavaScript's Invalid Date (`getTime()` = `NaN`). -/
def parseDate (s : String) : Option ℤ :=
  match s.data with
  | [y1, y2, y3, y4, h1, m1, m2, h2, d1, d2] =>
    if h1 = '-' ∧ h2 = '-' ∧
        ([y1, y2, y3, y4, m1, m2, d1, d2].all isDigitCh = true) then
      let y := toNum [y1, y2, y3, y4]
      let m := toNum [m1, m2]
      let d := toNum [d1, d2]
      if validDate y m d then some (toDays y m d) else none
    else none
  | _ => none

/-- Model of `new Date(s).getTime()` in milliseconds (`none` = `NaN`). -/
def getTimeMs (s : String) : Option ℤ := (parseDate s).map (· * 86400000)

/-! ### Stable sort (Array.prototype.sort) -/

/-- Insertion of `a` in front of the first element it may precede.  `le a b`
reads "`a` may come before `b`", i.e. the comparator on `(a, b)` returned a
value `≤ 0` (ties keep encounter order, matching the stable ES2019 sort). -/
def insertLe (le : α → α → Bool) (a : α) : List α → List α
  | [] => [a]
  | b :: l => if le a b then a :: b :: l else b :: insertLe le a l

/-- Stable insertion sort with comparator-derived relation `le`. -/
def sortLe (le : α → α → Bool) : List α → List α
  | [] => []
  | a :: l => insertLe le a (sortLe le l)

/-! ### Data model (src/server/types.ts) -/

structure Team where
  name : String
  deriving DecidableEq

structure Game where
  date : String
  location : String
  coordinates : ℝ × ℝ
  homeTeam : Team
  awayTeam : Team

structure TeamCount where
  name : String
  count : ℕ
  deriving DecidableEq

/-! ### computeMostCommonTeams (src/server/index.ts lines 46–61) -/

/-- Increment of the tally entry for `nm`, appending a fresh entry when the
key is absent (JS `counts[nm] = (counts[nm] ?? 0) + 1` on an insertion-ordered
record). -/
def bumpTeam (nm : String) : List (String × ℕ) → List (String × ℕ)
  | [] => [(nm, 1)]
  | (k, v) :: rest => if k = nm then (k, v + 1) :: rest else (k, v) :: bumpTeam nm rest

/-- Per-team occurrence tally over the games: home team first, away team
second, per game, in list order. -/
def tallyTeams (games : List Game) : List (String × ℕ) :=
  games.foldl (fun acc g => bumpTeam g.awayTeam.name (bumpTeam g.homeTeam.name acc)) []

/-- Comparator relation of `(a, b) => b.count - a.count`: `a` may precede `b`
iff `b.count - a.count ≤ 0`. -/
def teamCountLe (a b : TeamCount) : Bool := decide (b.count ≤ a.count)

/-- Tally entries as `{name, count}` pairs sorted descending by count. -/
def sortedTeamCounts (games : List Game) : List TeamCount :=
  sortLe teamCountLe ((tallyTeams games).map fun p => ⟨p.1, p.2⟩)

/-- `computeMostCommonTeams` from src/server/index.ts: tally, sort descending
by count, take the top `topN` (default 3 at the call site). -/
def computeMostCommonTeams (games : List Game) (topN : ℕ) : List TeamCount :=
  (sortedTeamCounts games).take topN

/-! ### computeDaysWorkedStreak (src/server/index.ts lines 63–80) -/

/-- First-occurrence deduplication, modelling `Array.from(new Set(xs))`;
`seen` accumulates the values already emitted. -/
def dedupFirst (seen : List String) : List String → List String
  | [] => []
  | a :: l => if a ∈ seen then dedupFirst seen l else a :: dedupFirst (a :: seen) l

/-- Default-comparator string order of `Array.prototype.sort()`: code-unit
lexicographic comparison. -/
def lexCmp : List Char → List Char → Ordering
  | [], [] => .eq
  | [], _ :: _ => .lt
  | _ :: _, [] => .gt
  | a :: as, b :: bs => if a < b then .lt else if b < a then .gt else lexCmp as bs

/-- String `s` may precede `t` under the default sort comparator. -/
def strLe (s t : String) : Bool := lexCmp s.data t.data != Ordering.gt

/-- Value of `Math.round(diff / 86400000)` for an exact integer millisecond
difference `diff`: the real `⌊diff / 86400000 + 1/2⌋`, written as the single
floor division `⌊(2·diff + 86400000) / 172800000⌋` so that it stays
kernel-computable (`roundGapDays_eq_floor` certifies the identity). -/
def roundGapDays (diff : ℤ) : ℤ := (2 * diff + 86400000).fdiv 172800000

/-- Loop test `Math.round((curr - prev) / 86400000) === 1` on millisecond
timestamps; `NaN` (`none`) never compares equal to `1`. -/
def gapIsOne : Option ℤ → Option ℤ → Bool
  | some p, some c => roundGapDays (c - p) == 1
  | _, _ => false

/-- Walk of the sorted distinct dates carrying `(streak, maxStreak)`, exactly
the `for` loop of `computeDaysWorkedStreak`. -/
def streakGo (prev : String) (rest : List String) (streak maxStreak : ℕ) : ℕ :=
  match rest with
  | [] => maxStreak
  | c :: rest' =>
    if gapIsOne (getTimeMs prev) (getTimeMs c) then
      streakGo c rest' (streak + 1) (max maxStreak (streak + 1))
    else
      streakGo c rest' 1 maxStreak

/-- Streak of a list of date strings: dedup, sort, walk. -/
def streakOfDates (ds : List String) : ℕ :=
  match sortLe strLe (dedupFirst [] ds) with
  | [] => 0
  | d :: rest => streakGo d rest 1 1

/-- `computeDaysWorkedStreak` from src/server/index.ts. -/
def computeDaysWorkedStreak (games : List Game) : ℕ :=
  streakOfDates (games.map fun g => g.date)

/-! ### haversineDistanceMiles and computeTotalMiles
(src/server/index.ts lines 24–44) -/

/-- JS `Math.atan2 y x`, modelled by the argument of the complex number
`x + y·i`. -/
noncomputable def atan2 (y x : ℝ) : ℝ := Complex.arg ⟨x, y⟩

/-- Degree-to-radian conversion `(deg * Math.PI) / 180`. -/
noncomputable def toRad (deg : ℝ) : ℝ := deg * Real.pi / 180

/-- `haversineDistanceMiles` from src/server/index.ts: great-circle distance
in statute miles, Earth radius 3958.8. -/
noncomputable def haversineDistanceMiles (coord1 coord2 : ℝ × ℝ) : ℝ :=
  let R : ℝ := 3958.8
  let lat1 := coord1.1
  let lon1 := coord1.2
  let lat2 := coord2.1
  let lon2 := coord2.2
  let dLat := toRad (lat2 - lat1)
  let dLon := toRad (lon2 - lon1)
  let a :=
    Real.sin (dLat / 2) ^ 2 +
      Real.cos (toRad lat1) * Real.cos (toRad lat2) * Real.sin (dLon / 2) ^ 2
  R * 2 * atan2 (Real.sqrt a) (Real.sqrt (1 - a))

/-- Comparator relation of `(a, b) => new Date(a.date).getTime() - new
Date(b.date).getTime()`: `a` may precede `b` iff the comparator value is
`≤ 0`, a `NaN` comparator value counting as `0` (ECMAScript SortCompare). -/
def dateLe (a b : Game) : Bool :=
  match getTimeMs a.date, getTimeMs b.date with
  | some x, some y => decide (x ≤ y)
  | _, _ => true

/-- Sum of the consecutive-pair haversine distances of the `for` loop of
`computeTotalMiles`. -/
noncomputable def pairSum : List Game → ℝ
  | a :: b :: rest => haversineDistanceMiles a.coordinates b.coordinates + pairSum (b :: rest)
  | _ => 0

/-- `computeTotalMiles` from src/server/index.ts: sort by date ascending
(stable), sum consecutive haversine distances, `Math.round` the total. -/
noncomputable def computeTotalMiles (games : List Game) : ℤ :=
  jsRound (pairSum (sortLe dateLe games))

/-! ### HTTP handlers -/

/-- Source referee record (src/server/index.ts lines 7–18): the optional
`totalMilesTravelled` models the `?` field of `RefereeSource`. -/
structure RefereeSource where
  id : String
  name : String
  totalMilesTravelled : Option ℤ
  games : List Game

/-- Response body of `GET /api/referees/:id` in the found case
(src/server/index.ts lines 131–136). -/
structure RefereeFull where
  id : String
  name : String
  games : List Game
  totalMilesTravelled : ℤ
  mostCommonTeams : List TeamCount
  daysWorkedStreak : ℕ

/-- HTTP outcome of a referee-detail request: either `404` with an error
body or `200` with a referee body. -/
inductive ApiResult (β : Type) where
  | notFound (status : ℕ) (error : String)
  | ok (status : ℕ) (body : β)

/-- `GET /api/referees/:id` handler of src/server/index.ts (lines 126–137):
first record whose `id` equals the request parameter, `404` otherwise; the
spread-plus-override builds the body with `totalMilesTravelled` taken from
the stored record when present (`??`) and the other two statistics always
computed fresh. -/
noncomputable def getRefereeHandler (db : List RefereeSource) (rid : String) : ApiResult RefereeFull :=
  match db.find? (fun r => r.id == rid) with
  | none => .notFound 404 "Referee not found"
  | some r =>
    .ok 200
      { id := r.id
        name := r.name
        games := r.games
        totalMilesTravelled := r.totalMilesTravelled.getD (computeTotalMiles r.games)
        mostCommonTeams := computeMostCommonTeams r.games 3
        daysWorkedStreak := computeDaysWorkedStreak r.games }

/-- Stored referee record of the backend variant
(src/backend/src/types.ts): all three statistics precomputed. -/
structure RefereeB where
  id : String
  name : String
  games : List Game
  totalMilesTravelled : ℤ
  mostCommonTeams : List TeamCount
  daysWorkedStreak : ℕ

/-- `GET /api/referees/:id` handler of the backend variant
(src/backend/src/server.ts lines 21–27). -/
def getRefereeHandlerB (db : List RefereeB) (rid : String) : ApiResult RefereeB :=
  match db.find? (fun r => r.id == rid) with
  | none => .notFound 404 "Referee not found"
  | some r => .ok 200 r

/-- List item of `GET /api/referees` (src/server/types.ts). -/
structure RefereeListItem where
  id : String
  name : String
  gameCount : ℕ
  deriving DecidableEq

/-- Body of `GET /api/referees` (src/server/index.ts lines 117–124). -/
def listReferees (db : List RefereeSource) : List RefereeListItem :=
  db.map fun r => ⟨r.id, r.name, r.games.length⟩

/-- `GET /api/referees` handler: always status `200` with the mapped list. -/
def listRefereesHandler (db : List RefereeSource) : ℕ × List RefereeListItem :=
  (200, listReferees db)

/-! ### Specification-side definitions (for the refinement claims) -/

/-- Sum of the `count` fields of a list of team tallies. -/
def sumCounts (l : List TeamCount) : ℕ := (l.map fun t => t.count).sum

/-- Length of the maximal prefix of `l` continuing the consecutive chain
`p + 1, p + 2, …`. -/
def chainLen : ℤ → List ℤ → ℕ
  | _, [] => 0
  | p, c :: l => if c = p + 1 then 1 + chainLen c l else 0

/-- Longest `1 + chainLen` value over the suffix starts of a sorted distinct
day list (proof-side reformulation of the streak fold). -/
def bestRun : List ℤ → ℕ
  | [] => 0
  | a :: l => max (1 + chainLen a l) (bestRun l)

/-- Fuelled length of the run of consecutive days `d, d + 1, …` inside `s`. -/
def runLenAux : ℕ → List ℤ → ℤ → ℕ
  | 0, _, _ => 0
  | n + 1, s, d => if d ∈ s then 1 + runLenAux n s (d + 1) else 0

/-- Modelled from the spec: "the length of the longest run of consecutive
calendar days among the distinct dates" — the longest chain `d, d + 1, …`
contained in `s`, maximised over starting days `d ∈ s` (fuel `s.length`
suffices for duplicate-free `s`). -/
def longestConsecutiveRun (s : List ℤ) : ℕ :=
  (s.map fun d => runLenAux s.length s d).foldr max 0

/-- Distinct parsed calendar days of a games list, in first-occurrence
order. -/
def gameDays (games : List Game) : List ℤ :=
  (games.filterMap fun g => parseDate g.date).dedup

/-! ### Proof-side helper definitions -/

/-- Millisecond sort key of a game (defined value for parseable dates). -/
def gameKey (g : Game) : ℤ := (getTimeMs g.date).getD 0

/-- Epoch-day value of a date string (defined value for parseable dates). -/
def dayOf (s : String) : ℤ := (parseDate s).getD 0

/-- Pure integer form of the streak walk: the string walk `streakGo` with
every date already parsed to its epoch-day number. -/
def walkZ : ℤ → List ℤ → ℕ → ℕ → ℕ
  | _, [], _, maxS => maxS
  | p, c :: rest, streak, maxS =>
    if c = p + 1 then walkZ c rest (streak + 1) (max maxS (streak + 1))
    else walkZ c rest 1 maxS

/-! ### Generic lemmas about the stable sort -/

theorem insertLe_perm (le : α → α → Bool) (a : α) :
    ∀ l : List α, List.Perm (insertLe le a l) (a :: l) := by
  intro l
  induction l with
  | nil => simp [insertLe]
  | cons b t ih =>
    by_cases h : le a b = true
    · simp [insertLe, h]
    · simp only [insertLe, h, if_false, Bool.false_eq_true]
      exact (ih.cons b).trans (List.Perm.swap a b t)

theorem sortLe_perm (le : α → α → Bool) : ∀ l : List α, List.Perm (sortLe le l) l := by
  intro l
  induction l with
  | nil => simp [sortLe]
  | cons a t ih => exact (insertLe_perm le a (sortLe le t)).trans (ih.cons a)

theorem mem_sortLe {le : α → α → Bool} {l : List α} {x : α} :
    x ∈ sortLe le l ↔ x ∈ l := (sortLe_perm le l).mem_iff

theorem insertLe_pairwise {le : α → α → Bool} {a : α} :
    ∀ {l : List α}, l.Pairwise (fun x y => le x y = true) →
    (∀ b ∈ l, le a b = true ∨ le b a = true) →
    (∀ b ∈ l, ∀ c ∈ l, le a b = true → le b c = true → le a c = true) →
    (insertLe le a l).Pairwise (fun x y => le x y = true) := by
  intro l
  induction l with
  | nil => intro _ _ _; simp [insertLe]
  | cons b t ih =>
    intro hp htot htrans
    rcases List.pairwise_cons.mp hp with ⟨hbt, hpt⟩
    by_cases h : le a b = true
    · simp only [insertLe, h, if_true]
      refine List.pairwise_cons.mpr ⟨?_, hp⟩
      intro c hc
      rcases List.mem_cons.mp hc with rfl | hc'
      · exact h
      · exact htrans b (by simp) c (by simp [hc']) h (hbt c hc')
    · simp only [insertLe, h, if_false, Bool.false_eq_true]
      refine List.pairwise_cons.mpr ⟨?_, ?_⟩
      · intro c hc
        have hc' := (insertLe_perm le a t).mem_iff.mp hc
        rcases List.mem_cons.mp hc' with rfl | hc''
        · rcases htot b (by simp) with h1 | h1
          · exact absurd h1 h
          · exact h1
        · exact hbt c hc''
      · exact ih hpt (fun x hx => htot x (by simp [hx]))
          (fun x hx y hy => htrans x (by simp [hx]) y (by simp [hy]))

theorem sortLe_pairwise {le : α → α → Bool} :
    ∀ {l : List α},
    (∀ a ∈ l, ∀ b ∈ l, le a b = true ∨ le b a = true) →
    (∀ a ∈ l, ∀ b ∈ l, ∀ c ∈ l, le a b = true → le b c = true → le a c = true) →
    (sortLe le l).Pairwise (fun x y => le x y = true) := by
  intro l
  induction l with
  | nil => intro _ _; simp [sortLe]
  | cons a t ih =>
    intro htot htrans
    have hmem : ∀ x ∈ sortLe le t, x ∈ t := fun x hx => mem_sortLe.mp hx
    exact insertLe_pairwise
      (ih (fun x hx y hy => htot x (by simp [hx]) y (by simp [hy]))
        (fun x hx y hy z hz => htrans x (by simp [hx]) y (by simp [hy]) z (by simp [hz])))
      (fun b hb => htot a (by simp) b (by simp [hmem b hb]))
      (fun b hb c hc => htrans a (by simp) b (by simp [hmem b hb]) c (by simp [hmem c hc]))

theorem sortLe_eq_self {le : α → α → Bool} :
    ∀ {l : List α}, (∀ a ∈ l, ∀ b ∈ l, le a b = true) → sortLe le l = l := by
  intro l
  induction l with
  | nil => intro _; rfl
  | cons a t ih =>
    intro h
    have ht : sortLe le t = t := ih fun x hx y hy => h x (by simp [hx]) y (by simp [hy])
    rw [sortLe, ht]
    cases t with
    | nil => rfl
    | cons b t' => simp [insertLe, h a (by simp) b (by simp)]

theorem eq_of_perm_of_strictSorted {key : α → ℤ} :
    ∀ {l₁ l₂ : List α}, List.Perm l₁ l₂ →
    l₁.Pairwise (fun x y => key x < key y) →
    l₂.Pairwise (fun x y => key x < key y) → l₁ = l₂ := by
  intro l₁
  induction l₁ with
  | nil =>
    intro l₂ h _ _
    cases l₂ with
    | nil => rfl
    | cons b t₂ => have := h.length_eq; simp at this
  | cons a t₁ ih =>
    intro l₂ h h₁ h₂
    cases l₂ with
    | nil => have := h.length_eq; simp at this
    | cons b t₂ =>
      rcases List.pairwise_cons.mp h₁ with ⟨ha, hpt₁⟩
      rcases List.pairwise_cons.mp h₂ with ⟨hb, hpt₂⟩
      by_cases hab : a = b
      · subst hab
        rw [ih h.cons_inv hpt₁ hpt₂]
      · exfalso
        have ha2 : a ∈ b :: t₂ := h.mem_iff.mp (by simp)
        have hb1 : b ∈ a :: t₁ := h.symm.mem_iff.mp (by simp)
        rcases List.mem_cons.mp ha2 with h1 | h1
        · exact hab h1
        · rcases List.mem_cons.mp hb1 with h2 | h2
          · exact hab h2.symm
          · have k1 := hb a h1
            have k2 := ha b h2
            omega

/-! ### Lemmas about dedupFirst -/

theorem mem_dedupFirst :
    ∀ {l : List String} {seen : List String} {x : String},
    x ∈ dedupFirst seen l ↔ x ∈ l ∧ x ∉ seen := by
  intro l
  induction l with
  | nil => intro seen x; simp [dedupFirst]
  | cons a t ih =>
    intro seen x
    by_cases h : a ∈ seen
    · simp only [dedupFirst, if_pos h, ih, List.mem_cons]
      constructor
      · rintro ⟨hx, hn⟩; exact ⟨Or.inr hx, hn⟩
      · rintro ⟨hx | hx, hn⟩
        · exact absurd h (hx ▸ hn)
        · exact ⟨hx, hn⟩
    · simp only [dedupFirst, if_neg h, List.mem_cons, ih]
      constructor
      · rintro (rfl | ⟨hx, hn⟩)
        · exact ⟨Or.inl rfl, h⟩
        · exact ⟨Or.inr hx, fun hc => hn (by simp [hc])⟩
      · rintro ⟨rfl | hx, hn⟩
        · exact Or.inl rfl
        · by_cases hxa : x = a
          · exact Or.inl hxa
          · exact Or.inr ⟨hx, by simp [hxa, hn]⟩

theorem nodup_dedupFirst :
    ∀ (l : List String) (seen : List String), (dedupFirst seen l).Nodup := by
  intro l
  induction l with
  | nil => intro seen; simp [dedupFirst]
  | cons a t ih =>
    intro seen
    by_cases h : a ∈ seen
    · simpa [dedupFirst, if_pos h] using ih seen
    · simp only [dedupFirst, if_neg h]
      refine List.nodup_cons.mpr ⟨?_, ih (a :: seen)⟩
      intro hc
      exact (mem_dedupFirst.mp hc).2 (by simp)

/-! ### The rounding of millisecond gaps -/

theorem roundGapDays_eq_floor (diff : ℤ) :
    roundGapDays diff = ⌊(diff : ℚ) / 86400000 + 1 / 2⌋ := by
  rw [roundGapDays, Int.fdiv_eq_ediv _ (by norm_num)]
  have h1 : 172800000 * ((2 * diff + 86400000) / 172800000) ≤ 2 * diff + 86400000 := by omega
  have h2 : 2 * diff + 86400000 < 172800000 * ((2 * diff + 86400000) / 172800000) + 172800000 := by
    omega
  have h1' : (172800000 : ℚ) * ((2 * diff + 86400000) / 172800000 : ℤ) ≤ 2 * (diff : ℚ) + 86400000 := by
    exact_mod_cast h1
  have h2' : 2 * (diff : ℚ) + 86400000 <
      172800000 * ((2 * diff + 86400000) / 172800000 : ℤ) + 172800000 := by
    exact_mod_cast h2
  rw [eq_comm, Int.floor_eq_iff]
  constructor
  · rw [div_add' _ _ _ (by norm_num : (86400000 : ℚ) ≠ 0)]
    rw [le_div_iff₀ (by norm_num : (0 : ℚ) < 86400000)]
    linarith
  · rw [div_add' _ _ _ (by norm_num : (86400000 : ℚ) ≠ 0)]
    rw [div_lt_iff₀ (by norm_num : (0 : ℚ) < 86400000)]
    linarith

theorem gapIsOne_mul (a b : ℤ) :
    gapIsOne (some (a * 86400000)) (some (b * 86400000)) = true ↔ b = a + 1 := by
  simp only [gapIsOne, beq_iff_eq, roundGapDays]
  rw [Int.fdiv_eq_ediv _ (by norm_num)]
  omega

/-! ### Haversine lemmas -/

theorem atan2_zero_one : atan2 0 1 = 0 := by
  have h : ((⟨1, 0⟩ : ℂ)) = 1 := by
    apply Complex.ext <;> simp
  rw [atan2, h, Complex.arg_one]

theorem atan2_one_zero : atan2 1 0 = Real.pi / 2 := by
  have h : ((⟨0, 1⟩ : ℂ)) = Complex.I := by
    apply Complex.ext <;> simp
  rw [atan2, h, Complex.arg_I]

theorem toRad_zero : toRad 0 = 0 := by
  simp [toRad]

theorem haversine_self (c : ℝ × ℝ) : haversineDistanceMiles c c = 0 := by
  show (3958.8 : ℝ) * 2 *
      atan2 (Real.sqrt (Real.sin (toRad (c.1 - c.1) / 2) ^ 2 +
        Real.cos (toRad c.1) * Real.cos (toRad c.1) * Real.sin (toRad (c.2 - c.2) / 2) ^ 2))
        (Real.sqrt (1 - (Real.sin (toRad (c.1 - c.1) / 2) ^ 2 +
          Real.cos (toRad c.1) * Real.cos (toRad c.1) * Real.sin (toRad (c.2 - c.2) / 2) ^ 2))) = 0
  rw [sub_self, sub_self, toRad_zero, zero_div, Real.sin_zero]
  norm_num [atan2_zero_one, Real.sqrt_zero, Real.sqrt_one]

theorem haversine_comm (c1 c2 : ℝ × ℝ) :
    haversineDistanceMiles c1 c2 = haversineDistanceMiles c2 c1 := by
  show (3958.8 : ℝ) * 2 *
      atan2 (Real.sqrt (Real.sin (toRad (c2.1 - c1.1) / 2) ^ 2 +
        Real.cos (toRad c1.1) * Real.cos (toRad c2.1) * Real.sin (toRad (c2.2 - c1.2) / 2) ^ 2))
        (Real.sqrt (1 - (Real.sin (toRad (c2.1 - c1.1) / 2) ^ 2 +
          Real.cos (toRad c1.1) * Real.cos (toRad c2.1) * Real.sin (toRad (c2.2 - c1.2) / 2) ^ 2))) =
      (3958.8 : ℝ) * 2 *
      atan2 (Real.sqrt (Real.sin (toRad (c1.1 - c2.1) / 2) ^ 2 +
        Real.cos (toRad c2.1) * Real.cos (toRad c1.1) * Real.sin (toRad (c1.2 - c2.2) / 2) ^ 2))
        (Real.sqrt (1 - (Real.sin (toRad (c1.1 - c2.1) / 2) ^ 2 +
          Real.cos (toRad c2.1) * Real.cos (toRad c1.1) * Real.sin (toRad (c1.2 - c2.2) / 2) ^ 2)))
  have h1 : toRad (c1.1 - c2.1) / 2 = -(toRad (c2.1 - c1.1) / 2) := by
    rw [toRad, toRad]; ring
  have h2 : toRad (c1.2 - c2.2) / 2 = -(toRad (c2.2 - c1.2) / 2) := by
    rw [toRad, toRad]; ring
  rw [h1, h2, Real.sin_neg, Real.sin_neg]
  ring_nf

theorem haversine_antipodal_equator :
    haversineDistanceMiles ((0 : ℝ), (0 : ℝ)) ((0 : ℝ), (180 : ℝ)) = 3958.8 * Real.pi := by
  show (3958.8 : ℝ) * 2 *
      atan2 (Real.sqrt (Real.sin (toRad ((0 : ℝ) - 0) / 2) ^ 2 +
        Real.cos (toRad 0) * Real.cos (toRad 0) * Real.sin (toRad ((180 : ℝ) - 0) / 2) ^ 2))
        (Real.sqrt (1 - (Real.sin (toRad ((0 : ℝ) - 0) / 2) ^ 2 +
          Real.cos (toRad 0) * Real.cos (toRad 0) * Real.sin (toRad ((180 : ℝ) - 0) / 2) ^ 2))) =
      3958.8 * Real.pi
  have h180 : toRad ((180 : ℝ) - 0) / 2 = Real.pi / 2 := by
    rw [toRad]; ring
  rw [sub_self, toRad_zero, zero_div, Real.sin_zero, h180, Real.sin_pi_div_two, Real.cos_zero]
  norm_num [atan2_one_zero]
  ring

theorem jsRound_zero : jsRound 0 = 0 := by
  rw [jsRound, zero_add, Int.floor_eq_zero_iff]
  constructor <;> norm_num

/-- C8: the haversine distance from a point to itself is 0, and the distance
is symmetric in its two coordinate pairs. -/
theorem haversine_self_eq_zero_and_symm (a b : ℝ × ℝ) :
    haversineDistanceMiles a a = 0 ∧
    haversineDistanceMiles a b = haversineDistanceMiles b a :=
  ⟨haversine_self a, haversine_comm a b⟩

/-- C7: on a games list with zero or one game, `computeTotalMiles` returns
exactly 0 (the consecutive-pair loop body never runs and `Math.round 0 = 0`). -/
theorem computeTotalMiles_eq_zero_of_length_le_one (games : List Game)
    (h : games.length ≤ 1) : computeTotalMiles games = 0 := by
  match games with
  | [] =>
    show jsRound (pairSum (sortLe dateLe [])) = 0
    rw [show sortLe dateLe ([] : List Game) = [] from rfl]
    rw [show pairSum [] = 0 from rfl]
    exact jsRound_zero
  | [g] =>
    show jsRound (pairSum (sortLe dateLe [g])) = 0
    rw [show sortLe dateLe [g] = [g] from rfl]
    rw [show pairSum [g] = 0 from rfl]
    exact jsRound_zero
  | g1 :: g2 :: rest => simp at h

/-- Witness for C7 at the empty games list. -/
theorem computeTotalMiles_eq_zero_of_length_le_one_witness :
    ([] : List Game).length ≤ 1 ∧ computeTotalMiles [] = 0 :=
  ⟨by decide, computeTotalMiles_eq_zero_of_length_le_one [] (by decide)⟩

/-! ### Tally lemmas (computeMostCommonTeams) -/

theorem bumpTeam_sum (nm : String) :
    ∀ l : List (String × ℕ),
    ((bumpTeam nm l).map Prod.snd).sum = (l.map Prod.snd).sum + 1 := by
  intro l
  induction l with
  | nil => simp [bumpTeam]
  | cons p rest ih =>
    obtain ⟨k, v⟩ := p
    by_cases h : k = nm
    · simp [bumpTeam, h]
      omega
    · simp [bumpTeam, h, ih]
      omega

theorem tallyTeams_go_sum :
    ∀ (gs : List Game) (acc : List (String × ℕ)),
    ((gs.foldl (fun acc g => bumpTeam g.awayTeam.name (bumpTeam g.homeTeam.name acc)) acc).map
      Prod.snd).sum = (acc.map Prod.snd).sum + 2 * gs.length := by
  intro gs
  induction gs with
  | nil => intro acc; simp
  | cons g rest ih =>
    intro acc
    rw [List.foldl_cons, ih, bumpTeam_sum, bumpTeam_sum]
    simp
    omega

theorem tallyTeams_sum (games : List Game) :
    ((tallyTeams games).map Prod.snd).sum = 2 * games.length := by
  rw [tallyTeams, tallyTeams_go_sum]
  simp

theorem sumCounts_sortedTeamCounts (games : List Game) :
    sumCounts (sortedTeamCounts games) = 2 * games.length := by
  rw [sumCounts, sortedTeamCounts]
  have hperm := (sortLe_perm teamCountLe ((tallyTeams games).map fun p => ⟨p.1, p.2⟩)).map
    (fun t : TeamCount => t.count)
  rw [hperm.sum_eq, List.map_map]
  have : ((fun t : TeamCount => t.count) ∘ fun p : String × ℕ => (⟨p.1, p.2⟩ : TeamCount)) =
      Prod.snd := rfl
  rw [this, tallyTeams_sum]

/-- C5: every game contributes exactly two team appearances, so the counts of
the returned top-N entries plus the counts of the entries cut off by the
limit sum to `2 ×` the number of games. -/
theorem mostCommonTeams_counts_sum (games : List Game) (topN : ℕ) :
    sumCounts (computeMostCommonTeams games topN) +
      sumCounts ((sortedTeamCounts games).drop topN) = 2 * games.length := by
  have hsplit : sumCounts (computeMostCommonTeams games topN) +
      sumCounts ((sortedTeamCounts games).drop topN) = sumCounts (sortedTeamCounts games) := by
    rw [computeMostCommonTeams, sumCounts, sumCounts, sumCounts, ← List.sum_append,
      ← List.map_append, List.take_append_drop]
  rw [hsplit, sumCounts_sortedTeamCounts]

theorem mem_bumpTeam_keys (nm : String) :
    ∀ (l : List (String × ℕ)) (x : String),
    x ∈ (bumpTeam nm l).map Prod.fst ↔ x ∈ l.map Prod.fst ∨ x = nm := by
  intro l
  induction l with
  | nil => intro x; simp [bumpTeam]
  | cons p rest ih =>
    intro x
    obtain ⟨k, v⟩ := p
    by_cases h : k = nm
    · subst h
      simp [bumpTeam]
      tauto
    · simp [bumpTeam, h, ih]
      tauto

theorem nodup_bumpTeam_keys (nm : String) :
    ∀ l : List (String × ℕ),
    (l.map Prod.fst).Nodup → ((bumpTeam nm l).map Prod.fst).Nodup := by
  intro l
  induction l with
  | nil => intro _; simp [bumpTeam]
  | cons p rest ih =>
    intro hn
    obtain ⟨k, v⟩ := p
    have hn' : (k :: rest.map Prod.fst).Nodup := by rw [List.map_cons] at hn; exact hn
    rcases List.nodup_cons.mp hn' with ⟨hk, hrest⟩
    by_cases h : k = nm
    · simpa [bumpTeam, h] using hn
    · simp only [bumpTeam, h, if_false, List.map_cons, List.nodup_cons]
      refine ⟨?_, ih hrest⟩
      intro hc
      rcases (mem_bumpTeam_keys nm rest k).mp hc with hc' | hc'
      · exact hk hc'
      · exact h hc'

theorem nodup_tallyTeams_go :
    ∀ (gs : List Game) (acc : List (String × ℕ)), (acc.map Prod.fst).Nodup →
    (((gs.foldl (fun acc g => bumpTeam g.awayTeam.name (bumpTeam g.homeTeam.name acc)) acc)).map
      Prod.fst).Nodup := by
  intro gs
  induction gs with
  | nil => intro acc h; simpa using h
  | cons g rest ih =>
    intro acc h
    rw [List.foldl_cons]
    exact ih _ (nodup_bumpTeam_keys _ _ (nodup_bumpTeam_keys _ _ h))

theorem nodup_tallyTeams_keys (games : List Game) :
    ((tallyTeams games).map Prod.fst).Nodup := by
  rw [tallyTeams]
  exact nodup_tallyTeams_go games [] (by simp)

theorem nodup_sortedTeamCounts_names (games : List Game) :
    ((sortedTeamCounts games).map (fun t => t.name)).Nodup := by
  have hperm := (sortLe_perm teamCountLe ((tallyTeams games).map fun p => ⟨p.1, p.2⟩)).map
    (fun t : TeamCount => t.name)
  refine hperm.nodup_iff.mpr ?_
  rw [List.map_map]
  have : ((fun t : TeamCount => t.name) ∘ fun p : String × ℕ => (⟨p.1, p.2⟩ : TeamCount)) =
      Prod.fst := rfl
  rw [this]
  exact nodup_tallyTeams_keys games

theorem sortedTeamCounts_pairwise (games : List Game) :
    (sortedTeamCounts games).Pairwise (fun a b => b.count ≤ a.count) := by
  have h := @sortLe_pairwise TeamCount teamCountLe
    ((tallyTeams games).map fun p => ⟨p.1, p.2⟩)
    (fun a _ b _ => by
      rcases Nat.le_total b.count a.count with h | h
      · exact Or.inl (by simpa [teamCountLe] using h)
      · exact Or.inr (by simpa [teamCountLe] using h))
    (fun a _ b _ c _ hab hbc => by
      simp only [teamCountLe, decide_eq_true_eq] at hab hbc ⊢
      omega)
  exact h.imp fun {x y} hxy => by simpa [teamCountLe] using hxy

/-- C6: the most-common-teams result is sorted descending by count, has at
most `topN` entries, returns the whole tally when there are at most `topN`
distinct team names, and never repeats a team name. -/
theorem mostCommonTeams_sorted_topN (games : List Game) (topN : ℕ) :
    (computeMostCommonTeams games topN).Pairwise (fun a b => b.count ≤ a.count) ∧
    (computeMostCommonTeams games topN).length ≤ topN ∧
    ((tallyTeams games).length ≤ topN →
      computeMostCommonTeams games topN = sortedTeamCounts games) ∧
    ((computeMostCommonTeams games topN).map (fun t => t.name)).Nodup := by
  refine ⟨?_, ?_, ?_, ?_⟩
  · exact (sortedTeamCounts_pairwise games).sublist (List.take_sublist _ _)
  · simp [computeMostCommonTeams]
  · intro h
    have hlen : (sortedTeamCounts games).length ≤ topN := by
      have := (sortLe_perm teamCountLe ((tallyTeams games).map fun p => ⟨p.1, p.2⟩)).length_eq
      simp only [sortedTeamCounts]
      rw [this, List.length_map]
      exact h
    exact List.take_of_length_le hlen
  · rw [computeMostCommonTeams, List.map_take]
    exact (nodup_sortedTeamCounts_names games).sublist (List.take_sublist _ _)

/-- Witness for C6: on a one-game list there are two distinct team names, so
the top-3 request returns the whole tally. -/
theorem mostCommonTeams_sorted_topN_witness :
    (tallyTeams [⟨"2024-01-01", "loc", ((0 : ℝ), (0 : ℝ)), ⟨"A"⟩, ⟨"B"⟩⟩]).length ≤ 3 ∧
    computeMostCommonTeams [⟨"2024-01-01", "loc", ((0 : ℝ), (0 : ℝ)), ⟨"A"⟩, ⟨"B"⟩⟩] 3 =
      sortedTeamCounts [⟨"2024-01-01", "loc", ((0 : ℝ), (0 : ℝ)), ⟨"A"⟩, ⟨"B"⟩⟩] :=
  ⟨by decide,
    (mostCommonTeams_sorted_topN [⟨"2024-01-01", "loc", ((0 : ℝ), (0 : ℝ)), ⟨"A"⟩, ⟨"B"⟩⟩]
      3).2.2.1 (by decide)⟩

/-! ### Handler claims -/

/-- C3: both `GET /api/referees/:id` handlers answer `404` with error
`"Referee not found"` exactly when no record's id equals the request id
(String equality, hence exact and case-sensitive); on the first matching
record the main handler answers `200` with the full record and the three
derived statistics. -/
theorem getReferee_notFound_iff (db : List RefereeSource) (rid : String) :
    (getRefereeHandler db rid = .notFound 404 "Referee not found" ↔ ∀ r ∈ db, r.id ≠ rid) ∧
    (∀ r, db.find? (fun x => x.id == rid) = some r →
      getRefereeHandler db rid = .ok 200
        { id := r.id
          name := r.name
          games := r.games
          totalMilesTravelled := r.totalMilesTravelled.getD (computeTotalMiles r.games)
          mostCommonTeams := computeMostCommonTeams r.games 3
          daysWorkedStreak := computeDaysWorkedStreak r.games }) ∧
    (∀ dbB : List RefereeB,
      getRefereeHandlerB dbB rid = .notFound 404 "Referee not found" ↔ ∀ r ∈ dbB, r.id ≠ rid) := by
  refine ⟨?_, ?_, ?_⟩
  · rcases hfind : db.find? (fun x => x.id == rid) with _ | r
    · simp only [getRefereeHandler, hfind]
      constructor
      · intro _
        intro r hr
        have := List.find?_eq_none.mp hfind r hr
        simpa using this
      · intro _; trivial
    · simp only [getRefereeHandler, hfind]
      constructor
      · intro h; exact absurd h (by simp)
      · intro h
        have hmem := List.mem_of_find?_eq_some hfind
        have hid := List.find?_some hfind
        exact absurd (by simpa using hid) (h r hmem)
  · intro r hfind
    simp only [getRefereeHandler, hfind]
  · intro dbB
    rcases hfind : dbB.find? (fun x => x.id == rid) with _ | r
    · simp only [getRefereeHandlerB, hfind]
      constructor
      · intro _ r hr
        have := List.find?_eq_none.mp hfind r hr
        simpa using this
      · intro _; trivial
    · simp only [getRefereeHandlerB, hfind]
      constructor
      · intro h; exact absurd h (by simp)
      · intro h
        have hmem := List.mem_of_find?_eq_some hfind
        have hid := List.find?_some hfind
        exact absurd (by simpa using hid) (h r hmem)

/-- Witness for C3 on a one-record dataset: an unknown id gives the 404
result, the stored id gives the 200 result with computed statistics. -/
theorem getReferee_notFound_iff_witness :
    getRefereeHandler [⟨"r1", "Jane", none, []⟩] "zz" = .notFound 404 "Referee not found" ∧
    getRefereeHandler [⟨"r1", "Jane", none, []⟩] "r1" = .ok 200
      { id := "r1"
        name := "Jane"
        games := []
        totalMilesTravelled := (none : Option ℤ).getD (computeTotalMiles [])
        mostCommonTeams := computeMostCommonTeams [] 3
        daysWorkedStreak := computeDaysWorkedStreak [] } :=
  ⟨(getReferee_notFound_iff [⟨"r1", "Jane", none, []⟩] "zz").1.mpr (by decide),
    (getReferee_notFound_iff [⟨"r1", "Jane", none, []⟩] "r1").2.1 ⟨"r1", "Jane", none, []⟩ rfl⟩

/-- C9: `GET /api/referees` answers `200` with one `{id, name, gameCount}`
entry per referee in dataset order (`gameCount` the length of the games
list), and the empty dataset gives the empty array. -/
theorem listReferees_spec (db : List RefereeSource) :
    (listRefereesHandler db).1 = 200 ∧
    (listReferees db).length = db.length ∧
    (∀ i, ∀ h : i < db.length,
      (listReferees db)[i]? =
        some ⟨(db.get ⟨i, h⟩).id, (db.get ⟨i, h⟩).name, (db.get ⟨i, h⟩).games.length⟩) ∧
    listReferees [] = [] := by
  refine ⟨rfl, by simp [listReferees], ?_, rfl⟩
  intro i h
  rw [listReferees, List.getElem?_map, List.getElem?_eq_getElem h]
  rfl

/-- Witness for C9 on a one-record dataset at index 0. -/
theorem listReferees_spec_witness :
    0 < ([⟨"r1", "Jane", none, []⟩] : List RefereeSource).length ∧
    (listReferees [⟨"r1", "Jane", none, []⟩])[0]? = some ⟨"r1", "Jane", 0⟩ :=
  ⟨by decide, (listReferees_spec [⟨"r1", "Jane", none, []⟩]).2.2.1 0 (by decide)⟩

/-- C10: on a found record the detail response always carries freshly
computed `mostCommonTeams` and `daysWorkedStreak`, while `totalMilesTravelled`
is the stored value when the optional field is present and the computed value
only when it is absent. -/
theorem getReferee_stats_freshness (db : List RefereeSource) (rid : String) (r : RefereeSource)
    (hfind : db.find? (fun x => x.id == rid) = some r) :
    ∃ body, getRefereeHandler db rid = .ok 200 body ∧
      body.mostCommonTeams = computeMostCommonTeams r.games 3 ∧
      body.daysWorkedStreak = computeDaysWorkedStreak r.games ∧
      (∀ v, r.totalMilesTravelled = some v → body.totalMilesTravelled = v) ∧
      (r.totalMilesTravelled = none → body.totalMilesTravelled = computeTotalMiles r.games) := by
  refine ⟨{ id := r.id
            name := r.name
            games := r.games
            totalMilesTravelled := r.totalMilesTravelled.getD (computeTotalMiles r.games)
            mostCommonTeams := computeMostCommonTeams r.games 3
            daysWorkedStreak := computeDaysWorkedStreak r.games },
    by simp only [getRefereeHandler, hfind], rfl, rfl, ?_, ?_⟩
  · intro v hv
    simp [hv]
  · intro hv
    simp [hv]

/-- Witness for C10: a stored `totalMilesTravelled` of 999 is served as
stored while the other two statistics come out computed. -/
theorem getReferee_stats_freshness_witness :
    ([⟨"r1", "Jane", some 999, []⟩] : List RefereeSource).find? (fun x => x.id == "r1") =
      some ⟨"r1", "Jane", some 999, []⟩ ∧
    ∃ body, getRefereeHandler [⟨"r1", "Jane", some 999, []⟩] "r1" = .ok 200 body ∧
      body.mostCommonTeams = computeMostCommonTeams [] 3 ∧
      body.daysWorkedStreak = computeDaysWorkedStreak [] ∧
      (∀ v, (some 999 : Option ℤ) = some v → body.totalMilesTravelled = v) ∧
      ((some 999 : Option ℤ) = none → body.totalMilesTravelled = computeTotalMiles []) :=
  ⟨rfl, getReferee_stats_freshness [⟨"r1", "Jane", some 999, []⟩] "r1" ⟨"r1", "Jane", some 999, []⟩ rfl⟩

/-! ### C1: permutation invariance of computeTotalMiles -/

theorem dateLe_eq_decide {g h : Game} (hg : (parseDate g.date).isSome)
    (hh : (parseDate h.date).isSome) : dateLe g h = decide (gameKey g ≤ gameKey h) := by
  rcases Option.isSome_iff_exists.mp hg with ⟨a, ha⟩
  rcases Option.isSome_iff_exists.mp hh with ⟨b, hb⟩
  rw [dateLe, gameKey, gameKey, getTimeMs, getTimeMs, ha, hb]
  rfl

theorem sortLe_dateLe_strict_sorted {l : List Game}
    (hvalid : ∀ g ∈ l, (parseDate g.date).isSome)
    (hdist : l.Pairwise (fun g h => parseDate g.date ≠ parseDate h.date)) :
    (sortLe dateLe l).Pairwise (fun g h => gameKey g < gameKey h) := by
  have hle : (sortLe dateLe l).Pairwise (fun x y => dateLe x y = true) := by
    refine sortLe_pairwise ?_ ?_
    · intro a ha b hb
      rw [dateLe_eq_decide (hvalid a ha) (hvalid b hb),
        dateLe_eq_decide (hvalid b hb) (hvalid a ha)]
      rcases Int.le_total (gameKey a) (gameKey b) with h | h
      · exact Or.inl (by simpa using h)
      · exact Or.inr (by simpa using h)
    · intro a ha b hb c hc hab hbc
      rw [dateLe_eq_decide (hvalid a ha) (hvalid b hb)] at hab
      rw [dateLe_eq_decide (hvalid b hb) (hvalid c hc)] at hbc
      rw [dateLe_eq_decide (hvalid a ha) (hvalid c hc)]
      simp only [decide_eq_true_eq] at hab hbc ⊢
      omega
  have hne : (sortLe dateLe l).Pairwise (fun g h => parseDate g.date ≠ parseDate h.date) := by
    refine ((sortLe_perm dateLe l).pairwise_iff ?_).mpr hdist
    intro a b hab
    exact fun h => hab h.symm
  refine (hle.and hne).imp_of_mem ?_
  intro g h hg hh hgh
  obtain ⟨hle', hne'⟩ := hgh
  have hgv := hvalid g (mem_sortLe.mp hg)
  have hhv := hvalid h (mem_sortLe.mp hh)
  rcases Option.isSome_iff_exists.mp hgv with ⟨a, ha⟩
  rcases Option.isSome_iff_exists.mp hhv with ⟨b, hb⟩
  rw [dateLe_eq_decide hgv hhv, decide_eq_true_eq] at hle'
  have hkg : gameKey g = a * 86400000 := by rw [gameKey, getTimeMs, ha]; rfl
  have hkh : gameKey h = b * 86400000 := by rw [gameKey, getTimeMs, hb]; rfl
  have hab : a ≠ b := fun hc => hne' (by rw [ha, hb, hc])
  rw [hkg, hkh] at hle' ⊢
  rcases lt_or_eq_of_le hle' with h | h
  · exact h
  · exact absurd (by omega : a = b) hab

/-- C1 (amended): `computeTotalMiles` is invariant under permutations of the
games list provided all dates are parseable and pairwise distinct; as stated
for arbitrary lists the claim fails, because ties in the date order are
broken by encounter order (see the counterexample). -/
theorem computeTotalMiles_perm_invariant_of_distinct_dates
    (l₁ l₂ : List Game) (hperm : List.Perm l₁ l₂)
    (hvalid : ∀ g ∈ l₁, (parseDate g.date).isSome)
    (hdist : l₁.Pairwise (fun g h => parseDate g.date ≠ parseDate h.date)) :
    computeTotalMiles l₁ = computeTotalMiles l₂ := by
  have hvalid₂ : ∀ g ∈ l₂, (parseDate g.date).isSome := fun g hg =>
    hvalid g (hperm.mem_iff.mpr hg)
  have hdist₂ : l₂.Pairwise (fun g h => parseDate g.date ≠ parseDate h.date) := by
    refine (hperm.pairwise_iff ?_).mp hdist
    intro a b hab
    exact fun h => hab h.symm
  have hs₁ := sortLe_dateLe_strict_sorted hvalid hdist
  have hs₂ := sortLe_dateLe_strict_sorted hvalid₂ hdist₂
  have hp : List.Perm (sortLe dateLe l₁) (sortLe dateLe l₂) :=
    ((sortLe_perm dateLe l₁).trans hperm).trans (sortLe_perm dateLe l₂).symm
  have heq : sortLe dateLe l₁ = sortLe dateLe l₂ :=
    eq_of_perm_of_strictSorted hp hs₁ hs₂
  rw [computeTotalMiles, computeTotalMiles, heq]

/-- Witness for the amended C1: two one-day-apart games swapped. -/
theorem computeTotalMiles_perm_invariant_witness :
    List.Perm [(⟨"2024-01-01", "", ((0 : ℝ), (0 : ℝ)), ⟨"T"⟩, ⟨"T"⟩⟩ : Game),
        ⟨"2024-01-02", "", ((0 : ℝ), (0 : ℝ)), ⟨"T"⟩, ⟨"T"⟩⟩]
      [⟨"2024-01-02", "", ((0 : ℝ), (0 : ℝ)), ⟨"T"⟩, ⟨"T"⟩⟩,
        ⟨"2024-01-01", "", ((0 : ℝ), (0 : ℝ)), ⟨"T"⟩, ⟨"T"⟩⟩] ∧
    computeTotalMiles [(⟨"2024-01-01", "", ((0 : ℝ), (0 : ℝ)), ⟨"T"⟩, ⟨"T"⟩⟩ : Game),
        ⟨"2024-01-02", "", ((0 : ℝ), (0 : ℝ)), ⟨"T"⟩, ⟨"T"⟩⟩] =
      computeTotalMiles [⟨"2024-01-02", "", ((0 : ℝ), (0 : ℝ)), ⟨"T"⟩, ⟨"T"⟩⟩,
        ⟨"2024-01-01", "", ((0 : ℝ), (0 : ℝ)), ⟨"T"⟩, ⟨"T"⟩⟩] :=
  ⟨List.Perm.swap _ _ [],
    computeTotalMiles_perm_invariant_of_distinct_dates _ _ (List.Perm.swap _ _ [])
      (by decide)
      (by refine List.pairwise_cons.mpr ⟨?_, List.pairwise_singleton _ _⟩
          intro g hg
          rw [List.mem_singleton] at hg
          subst hg
          decide)⟩

theorem sortLe_three {le : α → α → Bool} (a b c : α) (h1 : le a b = true)
    (h2 : le b c = true) : sortLe le [a, b, c] = [a, b, c] := by
  simp [sortLe, insertLe, h1, h2]

/-- C1 (counterexample): two games on the same date and a third on the next
day; swapping the two tied games changes which pair of consecutive
coordinates is summed, so `computeTotalMiles` is not invariant under
permutations of the input list. -/
theorem computeTotalMiles_not_perm_invariant :
    List.Perm
      [(⟨"2024-01-01", "", ((0 : ℝ), (0 : ℝ)), ⟨"T"⟩, ⟨"T"⟩⟩ : Game),
        ⟨"2024-01-01", "", ((0 : ℝ), (180 : ℝ)), ⟨"T"⟩, ⟨"T"⟩⟩,
        ⟨"2024-01-02", "", ((0 : ℝ), (0 : ℝ)), ⟨"T"⟩, ⟨"T"⟩⟩]
      [⟨"2024-01-01", "", ((0 : ℝ), (180 : ℝ)), ⟨"T"⟩, ⟨"T"⟩⟩,
        ⟨"2024-01-01", "", ((0 : ℝ), (0 : ℝ)), ⟨"T"⟩, ⟨"T"⟩⟩,
        ⟨"2024-01-02", "", ((0 : ℝ), (0 : ℝ)), ⟨"T"⟩, ⟨"T"⟩⟩] ∧
    computeTotalMiles
      [(⟨"2024-01-01", "", ((0 : ℝ), (0 : ℝ)), ⟨"T"⟩, ⟨"T"⟩⟩ : Game),
        ⟨"2024-01-01", "", ((0 : ℝ), (180 : ℝ)), ⟨"T"⟩, ⟨"T"⟩⟩,
        ⟨"2024-01-02", "", ((0 : ℝ), (0 : ℝ)), ⟨"T"⟩, ⟨"T"⟩⟩] ≠
    computeTotalMiles
      [⟨"2024-01-01", "", ((0 : ℝ), (180 : ℝ)), ⟨"T"⟩, ⟨"T"⟩⟩,
        ⟨"2024-01-01", "", ((0 : ℝ), (0 : ℝ)), ⟨"T"⟩, ⟨"T"⟩⟩,
        ⟨"2024-01-02", "", ((0 : ℝ), (0 : ℝ)), ⟨"T"⟩, ⟨"T"⟩⟩] := by
  constructor
  · exact List.Perm.swap _ _ _
  · have e1 : sortLe dateLe
        [(⟨"2024-01-01", "", ((0 : ℝ), (0 : ℝ)), ⟨"T"⟩, ⟨"T"⟩⟩ : Game),
          ⟨"2024-01-01", "", ((0 : ℝ), (180 : ℝ)), ⟨"T"⟩, ⟨"T"⟩⟩,
          ⟨"2024-01-02", "", ((0 : ℝ), (0 : ℝ)), ⟨"T"⟩, ⟨"T"⟩⟩] =
        [(⟨"2024-01-01", "", ((0 : ℝ), (0 : ℝ)), ⟨"T"⟩, ⟨"T"⟩⟩ : Game),
          ⟨"2024-01-01", "", ((0 : ℝ), (180 : ℝ)), ⟨"T"⟩, ⟨"T"⟩⟩,
          ⟨"2024-01-02", "", ((0 : ℝ), (0 : ℝ)), ⟨"T"⟩, ⟨"T"⟩⟩] :=
      sortLe_three _ _ _ (by decide) (by decide)
    have e2 : sortLe dateLe
        [(⟨"2024-01-01", "", ((0 : ℝ), (180 : ℝ)), ⟨"T"⟩, ⟨"T"⟩⟩ : Game),
          ⟨"2024-01-01", "", ((0 : ℝ), (0 : ℝ)), ⟨"T"⟩, ⟨"T"⟩⟩,
          ⟨"2024-01-02", "", ((0 : ℝ), (0 : ℝ)), ⟨"T"⟩, ⟨"T"⟩⟩] =
        [(⟨"2024-01-01", "", ((0 : ℝ), (180 : ℝ)), ⟨"T"⟩, ⟨"T"⟩⟩ : Game),
          ⟨"2024-01-01", "", ((0 : ℝ), (0 : ℝ)), ⟨"T"⟩, ⟨"T"⟩⟩,
          ⟨"2024-01-02", "", ((0 : ℝ), (0 : ℝ)), ⟨"T"⟩, ⟨"T"⟩⟩] :=
      sortLe_three _ _ _ (by decide) (by decide)
    rw [computeTotalMiles, computeTotalMiles, e1, e2]
    have p1 : pairSum
        [(⟨"2024-01-01", "", ((0 : ℝ), (0 : ℝ)), ⟨"T"⟩, ⟨"T"⟩⟩ : Game),
          ⟨"2024-01-01", "", ((0 : ℝ), (180 : ℝ)), ⟨"T"⟩, ⟨"T"⟩⟩,
          ⟨"2024-01-02", "", ((0 : ℝ), (0 : ℝ)), ⟨"T"⟩, ⟨"T"⟩⟩] =
        3958.8 * Real.pi + 3958.8 * Real.pi := by
      show haversineDistanceMiles ((0 : ℝ), (0 : ℝ)) ((0 : ℝ), (180 : ℝ)) +
          (haversineDistanceMiles ((0 : ℝ), (180 : ℝ)) ((0 : ℝ), (0 : ℝ)) + 0) =
          3958.8 * Real.pi + 3958.8 * Real.pi
      rw [haversine_comm ((0 : ℝ), (180 : ℝ)) ((0 : ℝ), (0 : ℝ)),
        haversine_antipodal_equator, add_zero]
    have p2 : pairSum
        [(⟨"2024-01-01", "", ((0 : ℝ), (180 : ℝ)), ⟨"T"⟩, ⟨"T"⟩⟩ : Game),
          ⟨"2024-01-01", "", ((0 : ℝ), (0 : ℝ)), ⟨"T"⟩, ⟨"T"⟩⟩,
          ⟨"2024-01-02", "", ((0 : ℝ), (0 : ℝ)), ⟨"T"⟩, ⟨"T"⟩⟩] = 3958.8 * Real.pi := by
      show haversineDistanceMiles ((0 : ℝ), (180 : ℝ)) ((0 : ℝ), (0 : ℝ)) +
          (haversineDistanceMiles ((0 : ℝ), (0 : ℝ)) ((0 : ℝ), (0 : ℝ)) + 0) =
          3958.8 * Real.pi
      rw [haversine_comm ((0 : ℝ), (180 : ℝ)) ((0 : ℝ), (0 : ℝ)),
        haversine_antipodal_equator, haversine_self, add_zero, add_zero]
    rw [p1, p2]
    have hb1 : (24874 : ℤ) ≤ jsRound (3958.8 * Real.pi + 3958.8 * Real.pi) := by
      rw [jsRound, Int.le_floor]
      have := Real.pi_gt_d6
      push_cast
      nlinarith
    have hb2 : jsRound (3958.8 * Real.pi) < 24874 := by
      rw [jsRound, Int.floor_lt]
      have := Real.pi_lt_d2
      push_cast
      nlinarith
    omega

/-! ### C2: malformed dates -/

theorem dateLe_of_invalid_left {a b : Game} (h : parseDate a.date = none) :
    dateLe a b = true := by
  rw [dateLe, getTimeMs, h]
  rfl

theorem streakGo_all_invalid :
    ∀ (rest : List String) (prev : String) (streak maxStreak : ℕ),
    parseDate prev = none → (∀ s ∈ rest, parseDate s = none) →
    streakGo prev rest streak maxStreak = maxStreak := by
  intro rest
  induction rest with
  | nil => intro prev streak maxS _ _; rfl
  | cons c rest' ih =>
    intro prev streak maxS hprev hrest
    rw [streakGo]
    have hgap : gapIsOne (getTimeMs prev) (getTimeMs c) = false := by
      rw [getTimeMs, hprev]
      rfl
    rw [hgap]
    simp only [Bool.false_eq_true, if_false]
    exact ih c 1 maxS (hrest c (by simp)) (fun s hs => hrest s (by simp [hs]))

/-- C2 (counterexample): a malformed date string parses to Invalid Date
(`NaN`), yet both statistics computations still return plain numbers
(streak 1 and 0 miles) instead of failing with an invalid-date error. -/
theorem stats_numeric_on_malformed_date :
    parseDate "not-a-date" = none ∧
    computeDaysWorkedStreak [⟨"not-a-date", "", ((0 : ℝ), (0 : ℝ)), ⟨"T"⟩, ⟨"T"⟩⟩] = 1 ∧
    computeTotalMiles [⟨"not-a-date", "", ((0 : ℝ), (0 : ℝ)), ⟨"T"⟩, ⟨"T"⟩⟩] = 0 := by
  refine ⟨by decide, by decide, ?_⟩
  show jsRound (pairSum (sortLe dateLe [⟨"not-a-date", "", ((0 : ℝ), (0 : ℝ)), ⟨"T"⟩, ⟨"T"⟩⟩])) = 0
  rw [show sortLe dateLe [(⟨"not-a-date", "", ((0 : ℝ), (0 : ℝ)), ⟨"T"⟩, ⟨"T"⟩⟩ : Game)] =
    [(⟨"not-a-date", "", ((0 : ℝ), (0 : ℝ)), ⟨"T"⟩, ⟨"T"⟩⟩ : Game)] from rfl]
  rw [show pairSum [(⟨"not-a-date", "", ((0 : ℝ), (0 : ℝ)), ⟨"T"⟩, ⟨"T"⟩⟩ : Game)] = 0 from rfl]
  exact jsRound_zero

/-- C2 (amended): malformed dates are silently coerced, not rejected: with
every date unparseable the streak is 0 on no games and 1 otherwise (a `NaN`
gap never rounds to one day — the streak equals `min length 1` over the
distinct dates), and `computeTotalMiles` still rounds the
distance sum over the list in its original order (every comparator value is
`NaN`, so the stable sort moves nothing). -/
theorem malformed_dates_silently_handled (games : List Game)
    (h : ∀ g ∈ games, parseDate g.date = none) :
    computeDaysWorkedStreak games = min games.length 1 ∧
    computeTotalMiles games = jsRound (pairSum games) := by
  constructor
  · cases games with
    | nil => rfl
    | cons g gs =>
      rw [show min (g :: gs).length 1 = 1 by simp]
      rw [computeDaysWorkedStreak, streakOfDates]
      rcases hsort : sortLe strLe (dedupFirst [] ((g :: gs).map fun x => x.date)) with _ | ⟨d, rest⟩
      · exfalso
        have hne : dedupFirst [] ((g :: gs).map fun x => x.date) ≠ [] := by
          simp [dedupFirst]
        have := (sortLe_perm strLe (dedupFirst [] ((g :: gs).map fun x => x.date))).length_eq
        rw [hsort] at this
        exact hne (List.length_eq_zero.mp this.symm)
      · have hmem : ∀ s ∈ d :: rest, parseDate s = none := by
          intro s hs
          have : s ∈ dedupFirst [] ((g :: gs).map fun x => x.date) := by
            rw [← hsort] at hs
            exact mem_sortLe.mp hs
          have : s ∈ (g :: gs).map fun x => x.date := (mem_dedupFirst.mp this).1
          rcases List.mem_map.mp this with ⟨x, hx, rfl⟩
          exact h x hx
        rw [hsort]
        exact streakGo_all_invalid rest d 1 1 (hmem d (by simp))
          (fun s hs => hmem s (by simp [hs]))
  · rw [computeTotalMiles,
      sortLe_eq_self (fun a ha b _ => dateLe_of_invalid_left (h a ha))]

/-- Witness for the amended C2 at a single malformed-date game. -/
theorem malformed_dates_silently_handled_witness :
    (∀ g ∈ [(⟨"not-a-date", "", ((0 : ℝ), (0 : ℝ)), ⟨"T"⟩, ⟨"T"⟩⟩ : Game)],
      parseDate g.date = none) ∧
    computeDaysWorkedStreak [(⟨"not-a-date", "", ((0 : ℝ), (0 : ℝ)), ⟨"T"⟩, ⟨"T"⟩⟩ : Game)] =
      min ([(⟨"not-a-date", "", ((0 : ℝ), (0 : ℝ)), ⟨"T"⟩, ⟨"T"⟩⟩ : Game)].length) 1 ∧
    computeTotalMiles [(⟨"not-a-date", "", ((0 : ℝ), (0 : ℝ)), ⟨"T"⟩, ⟨"T"⟩⟩ : Game)] =
      jsRound (pairSum [(⟨"not-a-date", "", ((0 : ℝ), (0 : ℝ)), ⟨"T"⟩, ⟨"T"⟩⟩ : Game)]) :=
  ⟨by decide, malformed_dates_silently_handled _ (by decide)⟩

/-! ### lexCmp lemmas (default string sort order) -/

theorem lexCmp_eq_iff : ∀ as bs : List Char, lexCmp as bs = .eq ↔ as = bs := by
  intro as
  induction as with
  | nil =>
    intro bs
    cases bs with
    | nil => simp [lexCmp]
    | cons b bs => simp [lexCmp]
  | cons a as ih =>
    intro bs
    cases bs with
    | nil => simp [lexCmp]
    | cons b bs =>
      rcases lt_trichotomy a b with h | h | h
      · simp [lexCmp, h, ne_of_lt h]
      · subst h
        simp [lexCmp, lt_irrefl, ih]
      · simp [lexCmp, h, not_lt_of_lt h, (ne_of_lt h).symm]

theorem lexCmp_lt_iff_gt : ∀ as bs : List Char, lexCmp as bs = .lt ↔ lexCmp bs as = .gt := by
  intro as
  induction as with
  | nil =>
    intro bs
    cases bs with
    | nil => simp [lexCmp]
    | cons b bs => simp [lexCmp]
  | cons a as ih =>
    intro bs
    cases bs with
    | nil => simp [lexCmp]
    | cons b bs =>
      rcases lt_trichotomy a b with h | h | h
      · simp [lexCmp, h, not_lt_of_lt h]
      · subst h
        simp [lexCmp, lt_irrefl, ih]
      · simp [lexCmp, h, not_lt_of_lt h]

theorem lexCmp_lt_trans :
    ∀ as bs cs : List Char, lexCmp as bs = .lt → lexCmp bs cs = .lt → lexCmp as cs = .lt := by
  intro as
  induction as with
  | nil =>
    intro bs cs h1 h2
    cases bs with
    | nil => simp [lexCmp] at h1
    | cons b bs =>
      cases cs with
      | nil => simp [lexCmp] at h2
      | cons c cs => simp [lexCmp]
  | cons a as ih =>
    intro bs cs h1 h2
    cases bs with
    | nil => simp [lexCmp] at h1
    | cons b bs =>
      cases cs with
      | nil => simp [lexCmp] at h2
      | cons c cs =>
        rcases lt_trichotomy a b with hab | hab | hab
        · rcases lt_trichotomy b c with hbc | hbc | hbc
          · simp [lexCmp, lt_trans hab hbc]
          · subst hbc
            simp [lexCmp, hab]
          · rw [lexCmp, if_neg (not_lt_of_lt hbc), if_pos hbc] at h2
            exact absurd h2 (by simp)
        · subst hab
          rcases lt_trichotomy a c with hac | hac | hac
          · simp [lexCmp, hac]
          · subst hac
            rw [lexCmp, if_neg (lt_irrefl a), if_neg (lt_irrefl a)] at h1 h2 ⊢
            exact ih bs cs h1 h2
          · rw [lexCmp, if_neg (not_lt_of_lt hac), if_pos hac] at h2
            exact absurd h2 (by simp)
        · rw [lexCmp, if_neg (not_lt_of_lt hab), if_pos hab] at h1
          exact absurd h1 (by simp)

theorem strLe_eq_true_iff {s t : String} : strLe s t = true ↔ lexCmp s.data t.data ≠ .gt := by
  rw [strLe]
  rcases lexCmp s.data t.data with _ | _ | _ <;> decide

theorem strLe_total (s t : String) : strLe s t = true ∨ strLe t s = true := by
  rw [strLe_eq_true_iff, strLe_eq_true_iff]
  by_cases h : lexCmp s.data t.data = .gt
  · right
    rw [← lexCmp_lt_iff_gt] at h
    rw [h]
    simp
  · exact Or.inl h

theorem strLe_trans (s t u : String) (h1 : strLe s t = true) (h2 : strLe t u = true) :
    strLe s u = true := by
  rw [strLe_eq_true_iff] at h1 h2 ⊢
  rcases hst : lexCmp s.data t.data with _ | _ | _
  · rcases htu : lexCmp t.data u.data with _ | _ | _
    · intro hc
      rw [lexCmp_lt_trans _ _ _ hst htu] at hc
      simp at hc
    · rw [lexCmp_eq_iff] at htu
      intro hc
      rw [htu] at hst
      rw [hst] at hc
      simp at hc
    · exact absurd htu h2
  · rw [lexCmp_eq_iff] at hst
    rw [hst]
    exact h2
  · exact absurd hst h1

/-! ### Digit strings and their numeric values -/

theorem toNum_foldl :
    ∀ (cs : List Char) (n : ℕ),
    cs.foldl (fun n c => n * 10 + (c.toNat - 48)) n = n * 10 ^ cs.length + toNum cs := by
  intro cs
  induction cs with
  | nil => intro n; simp [toNum]
  | cons c cs ih =>
    intro n
    rw [List.foldl_cons, ih]
    have h2 : toNum (c :: cs) = (c.toNat - 48) * 10 ^ cs.length + toNum cs := by
      rw [toNum, List.foldl_cons, ih]
      ring_nf
    rw [h2, List.length_cons]
    ring

theorem toNum_cons (c : Char) (cs : List Char) :
    toNum (c :: cs) = (c.toNat - 48) * 10 ^ cs.length + toNum cs := by
  rw [toNum, List.foldl_cons, toNum_foldl]
  ring_nf

theorem toNum_lt :
    ∀ cs : List Char, (∀ c ∈ cs, isDigitCh c = true) → toNum cs < 10 ^ cs.length := by
  intro cs
  induction cs with
  | nil => intro _; simp [toNum]
  | cons c cs ih =>
    intro h
    rw [toNum_cons, List.length_cons]
    have hd : c.toNat - 48 ≤ 9 := by
      have := h c (by simp)
      rw [isDigitCh, Bool.and_eq_true, decide_eq_true_eq, decide_eq_true_eq] at this
      omega
    have ht := ih fun x hx => h x (by simp [hx])
    calc (c.toNat - 48) * 10 ^ cs.length + toNum cs
        < (c.toNat - 48) * 10 ^ cs.length + 10 ^ cs.length := by omega
      _ ≤ 9 * 10 ^ cs.length + 10 ^ cs.length :=
        Nat.add_le_add_right (Nat.mul_le_mul_right _ hd) _
      _ = 10 ^ (cs.length + 1) := by ring

theorem digit_toNat_ge {c : Char} (h : isDigitCh c = true) : 48 ≤ c.toNat := by
  rw [isDigitCh, Bool.and_eq_true, decide_eq_true_eq, decide_eq_true_eq] at h
  exact h.1

theorem lexCmp_lt_digits :
    ∀ (as bs : List Char), as.length = bs.length →
    (∀ c ∈ as, isDigitCh c = true) → (∀ c ∈ bs, isDigitCh c = true) →
    lexCmp as bs = .lt → toNum as < toNum bs := by
  intro as
  induction as with
  | nil =>
    intro bs hlen _ _ hlt
    cases bs with
    | nil => simp [lexCmp] at hlt
    | cons b bs => simp at hlen
  | cons a as ih =>
    intro bs hlen hda hdb hlt
    cases bs with
    | nil => simp at hlen
    | cons b bs =>
      have hlen' : as.length = bs.length := by simpa using hlen
      rw [toNum_cons, toNum_cons, hlen']
      rcases lt_trichotomy a b with h | h | h
      · have hna : a.toNat < b.toNat := h
        have h48a := digit_toNat_ge (hda a (by simp))
        have hsucc : a.toNat - 48 + 1 ≤ b.toNat - 48 := by omega
        have hx := toNum_lt as fun c hc => hda c (by simp [hc])
        rw [hlen'] at hx
        have hP : (0 : ℕ) < 10 ^ bs.length := Nat.pos_pow_of_pos _ (by norm_num)
        nlinarith [Nat.zero_le (toNum bs)]
      · subst h
        rw [lexCmp, if_neg (lt_irrefl a), if_neg (lt_irrefl a)] at hlt
        have := ih bs hlen' (fun c hc => hda c (by simp [hc])) (fun c hc => hdb c (by simp [hc]))
          hlt
        omega
      · rw [lexCmp, if_neg (not_lt_of_lt h), if_pos h] at hlt
        exact absurd hlt (by simp)

theorem lexCmp_append :
    ∀ (as bs cs ds : List Char), as.length = bs.length →
    lexCmp (as ++ cs) (bs ++ ds) =
      (if lexCmp as bs = .eq then lexCmp cs ds else lexCmp as bs) := by
  intro as
  induction as with
  | nil =>
    intro bs cs ds hlen
    cases bs with
    | nil => simp [lexCmp]
    | cons b bs => simp at hlen
  | cons a as ih =>
    intro bs cs ds hlen
    cases bs with
    | nil => simp at hlen
    | cons b bs =>
      have hlen' : as.length = bs.length := by simpa using hlen
      rcases lt_trichotomy a b with h | h | h
      · rw [List.cons_append, List.cons_append, lexCmp, if_pos h]
        rw [show lexCmp (a :: as) (b :: bs) = .lt by rw [lexCmp, if_pos h]]
        simp
      · subst h
        rw [List.cons_append, List.cons_append, lexCmp, if_neg (lt_irrefl a),
          if_neg (lt_irrefl a), ih bs cs ds hlen']
        rw [show lexCmp (a :: as) (a :: bs) = lexCmp as bs by
          rw [lexCmp, if_neg (lt_irrefl a), if_neg (lt_irrefl a)]]
      · rw [List.cons_append, List.cons_append, lexCmp, if_neg (not_lt_of_lt h), if_pos h]
        rw [show lexCmp (a :: as) (b :: bs) = .gt by
          rw [lexCmp, if_neg (not_lt_of_lt h), if_pos h]]
        simp

/-! ### Calendar monotonicity -/

theorem isLeap_iff (y : ℕ) : isLeap y = true ↔ ((y % 4 = 0 ∧ y % 100 ≠ 0) ∨ y % 400 = 0) := by
  rw [isLeap]
  simp [Bool.or_eq_true, Bool.and_eq_true, beq_iff_eq, bne_iff_ne]

theorem daysBeforeYear_succ (y : ℕ) :
    daysBeforeYear (y + 1) = daysBeforeYear y + (if isLeap y = true then 366 else 365) := by
  rw [daysBeforeYear, daysBeforeYear, leapsBefore, leapsBefore]
  by_cases h : isLeap y = true
  · rw [if_pos h]
    rw [isLeap_iff] at h
    omega
  · rw [if_neg h]
    rw [Bool.not_eq_true, ← Bool.not_eq_true, isLeap_iff] at h
    omega

theorem daysBeforeYear_mono {y z : ℕ} (h : y ≤ z) : daysBeforeYear y ≤ daysBeforeYear z := by
  induction h with
  | refl => exact le_refl _
  | step _ ih =>
    rename_i z' _
    rw [daysBeforeYear_succ]
    split_ifs <;> omega

theorem validDate_bounds {y m d : ℕ} (hv : validDate y m d = true) :
    1 ≤ m ∧ m ≤ 12 ∧ 1 ≤ d ∧ d ≤ daysInMonth (isLeap y) m := by
  rw [validDate] at hv
  simp only [Bool.and_eq_true, decide_eq_true_eq] at hv
  exact ⟨hv.1.1.1, hv.1.1.2, hv.1.2, hv.2⟩

theorem dayOfYear_le {y m d : ℕ} (hv : validDate y m d = true) :
    daysBeforeMonth (isLeap y) m + d ≤ (if isLeap y = true then 366 else 365) := by
  obtain ⟨h1, h2, h3, h4⟩ := validDate_bounds hv
  cases hl : isLeap y <;> rw [hl] at h4 <;>
    interval_cases m <;> simp [daysBeforeMonth, daysInMonth] at * <;> omega

theorem daysBeforeMonth_add_le {b : Bool} {m1 m2 d1 : ℕ} (h1 : 1 ≤ m1) (h12 : m1 < m2)
    (h2 : m2 ≤ 12) (hd : d1 ≤ daysInMonth b m1) :
    daysBeforeMonth b m1 + d1 ≤ daysBeforeMonth b m2 := by
  have h1' : m1 ≤ 11 := by omega
  cases b <;> interval_cases m1 <;> interval_cases m2 <;>
    simp [daysBeforeMonth, daysInMonth] at * <;> omega

theorem toDays_lt {y1 m1 d1 y2 m2 d2 : ℕ} (hv1 : validDate y1 m1 d1 = true)
    (hv2 : validDate y2 m2 d2 = true)
    (hlt : y1 < y2 ∨ (y1 = y2 ∧ (m1 < m2 ∨ (m1 = m2 ∧ d1 < d2)))) :
    toDays y1 m1 d1 < toDays y2 m2 d2 := by
  obtain ⟨ha1, ha2, ha3, ha4⟩ := validDate_bounds hv1
  obtain ⟨hb1, hb2, hb3, hb4⟩ := validDate_bounds hv2
  rw [toDays, toDays]
  rcases hlt with h | ⟨rfl, h⟩
  · have hstep := daysBeforeYear_succ y1
    have hmono := daysBeforeYear_mono (show y1 + 1 ≤ y2 from h)
    have hdoy := dayOfYear_le hv1
    have hnat : daysBeforeYear y1 + (daysBeforeMonth (isLeap y1) m1 + d1) ≤ daysBeforeYear y2 := by
      split_ifs at hstep hdoy <;> omega
    omega
  · rcases h with h | ⟨rfl, h⟩
    · have hmm := daysBeforeMonth_add_le ha1 h hb2 ha4
      omega
    · omega

/-! ### parseDate structure and monotonicity -/

theorem string_data_inj {s t : String} (h : s.data = t.data) : s = t := by
  cases s
  cases t
  exact congrArg String.mk h

theorem parseDate_some_elim {s : String} {a : ℤ} (hs : parseDate s = some a) :
    ∃ y1 y2 y3 y4 m1 m2 d1 d2 : Char,
      s.data = [y1, y2, y3, y4, '-', m1, m2, '-', d1, d2] ∧
      (∀ c ∈ [y1, y2, y3, y4, m1, m2, d1, d2], isDigitCh c = true) ∧
      validDate (toNum [y1, y2, y3, y4]) (toNum [m1, m2]) (toNum [d1, d2]) = true ∧
      a = toDays (toNum [y1, y2, y3, y4]) (toNum [m1, m2]) (toNum [d1, d2]) := by
  rw [parseDate] at hs
  split at hs
  · rename_i y1 y2 y3 y4 h1 m1 m2 h2 d1 d2 heq
    split_ifs at hs with hc
    · obtain ⟨rfl, rfl, hdig⟩ := hc
      simp only [] at hs
      split_ifs at hs with hv
      refine ⟨y1, y2, y3, y4, m1, m2, d1, d2, heq, ?_, hv, ?_⟩
      · exact fun c hc' => List.all_eq_true.mp hdig c hc'
      · exact (Option.some.inj hs).symm
  · exact absurd hs (by simp)

theorem lexCmp_date_components
    {y1 y2 y3 y4 m1 m2 d1 d2 p1 p2 p3 p4 q1 q2 r1 r2 : Char}
    (hda : ∀ c ∈ [y1, y2, y3, y4, m1, m2, d1, d2], isDigitCh c = true)
    (hdb : ∀ c ∈ [p1, p2, p3, p4, q1, q2, r1, r2], isDigitCh c = true)
    (hlt : lexCmp [y1, y2, y3, y4, '-', m1, m2, '-', d1, d2]
      [p1, p2, p3, p4, '-', q1, q2, '-', r1, r2] = .lt) :
    toNum [y1, y2, y3, y4] < toNum [p1, p2, p3, p4] ∨
    (toNum [y1, y2, y3, y4] = toNum [p1, p2, p3, p4] ∧
      (toNum [m1, m2] < toNum [q1, q2] ∨
        (toNum [m1, m2] = toNum [q1, q2] ∧ toNum [d1, d2] < toNum [r1, r2]))) := by
  have hya : ∀ c ∈ [y1, y2, y3, y4], isDigitCh c = true :=
    fun c hc => hda c (by simp at hc ⊢; tauto)
  have hma : ∀ c ∈ [m1, m2], isDigitCh c = true :=
    fun c hc => hda c (by simp at hc ⊢; tauto)
  have hdaa : ∀ c ∈ [d1, d2], isDigitCh c = true :=
    fun c hc => hda c (by simp at hc ⊢; tauto)
  have hyb : ∀ c ∈ [p1, p2, p3, p4], isDigitCh c = true :=
    fun c hc => hdb c (by simp at hc ⊢; tauto)
  have hmb : ∀ c ∈ [q1, q2], isDigitCh c = true :=
    fun c hc => hdb c (by simp at hc ⊢; tauto)
  have hdb' : ∀ c ∈ [r1, r2], isDigitCh c = true :=
    fun c hc => hdb c (by simp at hc ⊢; tauto)
  have e1 : [y1, y2, y3, y4, '-', m1, m2, '-', d1, d2] =
      [y1, y2, y3, y4] ++ ('-' :: ([m1, m2] ++ ('-' :: [d1, d2]))) := rfl
  have e2 : [p1, p2, p3, p4, '-', q1, q2, '-', r1, r2] =
      [p1, p2, p3, p4] ++ ('-' :: ([q1, q2] ++ ('-' :: [r1, r2]))) := rfl
  rw [e1, e2, lexCmp_append [y1, y2, y3, y4] [p1, p2, p3, p4] _ _ (by simp)] at hlt
  by_cases hy : lexCmp [y1, y2, y3, y4] [p1, p2, p3, p4] = .eq
  · rw [if_pos hy] at hlt
    rw [lexCmp, if_neg (lt_irrefl _), if_neg (lt_irrefl _)] at hlt
    rw [lexCmp_append [m1, m2] [q1, q2] _ _ (by simp)] at hlt
    have hyeq : toNum [y1, y2, y3, y4] = toNum [p1, p2, p3, p4] := by
      rw [lexCmp_eq_iff] at hy
      rw [hy]
    by_cases hm : lexCmp [m1, m2] [q1, q2] = .eq
    · rw [if_pos hm] at hlt
      rw [lexCmp, if_neg (lt_irrefl _), if_neg (lt_irrefl _)] at hlt
      have hmeq : toNum [m1, m2] = toNum [q1, q2] := by
        rw [lexCmp_eq_iff] at hm
        rw [hm]
      exact Or.inr ⟨hyeq, Or.inr ⟨hmeq, lexCmp_lt_digits _ _ rfl hdaa hdb' hlt⟩⟩
    · rw [if_neg hm] at hlt
      exact Or.inr ⟨hyeq, Or.inl (lexCmp_lt_digits _ _ rfl hma hmb hlt)⟩
  · rw [if_neg hy] at hlt
    exact Or.inl (lexCmp_lt_digits _ _ rfl hya hyb hlt)

theorem parseDate_lt_of_lexCmp {s t : String} {a b : ℤ}
    (hs : parseDate s = some a) (ht : parseDate t = some b)
    (hlt : lexCmp s.data t.data = .lt) : a < b := by
  obtain ⟨y1, y2, y3, y4, m1, m2, d1, d2, hsd, hdigs, hvs, rfl⟩ := parseDate_some_elim hs
  obtain ⟨p1, p2, p3, p4, q1, q2, r1, r2, htd, hdigt, hvt, rfl⟩ := parseDate_some_elim ht
  rw [hsd, htd] at hlt
  rcases lexCmp_date_components hdigs hdigt hlt with h | ⟨hy, h | ⟨hm, hd⟩⟩
  · exact toDays_lt hvs hvt (Or.inl h)
  · exact toDays_lt hvs hvt (Or.inr ⟨hy, Or.inl h⟩)
  · exact toDays_lt hvs hvt (Or.inr ⟨hy, Or.inr ⟨hm, hd⟩⟩)

theorem parseDate_lt_of_strLe {s t : String} {a b : ℤ}
    (hs : parseDate s = some a) (ht : parseDate t = some b)
    (hle : strLe s t = true) (hne : s ≠ t) : a < b := by
  rw [strLe_eq_true_iff] at hle
  rcases hcmp : lexCmp s.data t.data with _ | _ | _
  · exact parseDate_lt_of_lexCmp hs ht hcmp
  · exact absurd (string_data_inj (lexCmp_eq_iff _ _ |>.mp hcmp)) hne
  · exact absurd hcmp hle

/-! ### Streak combinatorics on integer day lists -/

theorem walkZ_eq :
    ∀ (l : List ℤ) (p : ℤ) (streak maxS : ℕ), 1 ≤ streak → streak ≤ maxS →
    walkZ p l streak maxS = max maxS (max (streak + chainLen p l) (bestRun l)) := by
  intro l
  induction l with
  | nil =>
    intro p streak maxS h1 h2
    rw [walkZ, chainLen, bestRun]
    omega
  | cons c l ih =>
    intro p streak maxS h1 h2
    rw [walkZ]
    by_cases hc : c = p + 1
    · rw [if_pos hc, ih c (streak + 1) _ (by omega) (by omega), chainLen, if_pos hc, bestRun]
      omega
    · rw [if_neg hc, ih c 1 maxS (le_refl 1) (by omega), chainLen, if_neg hc, bestRun]
      omega

theorem walkZ_head_eq_bestRun (d : ℤ) (rest : List ℤ) :
    walkZ d rest 1 1 = bestRun (d :: rest) := by
  rw [walkZ_eq rest d 1 1 (le_refl 1) (le_refl 1), bestRun]
  omega

theorem runLenAux_congr {s s' : List ℤ} (h : ∀ x : ℤ, x ∈ s ↔ x ∈ s') :
    ∀ (n : ℕ) (d : ℤ), runLenAux n s d = runLenAux n s' d := by
  intro n
  induction n with
  | zero => intro d; rfl
  | succ n ih =>
    intro d
    rw [runLenAux, runLenAux]
    by_cases hd : d ∈ s
    · rw [if_pos hd, if_pos ((h d).mp hd), ih]
    · rw [if_neg hd, if_neg (fun hc => hd ((h d).mpr hc))]

theorem countGe_succ :
    ∀ {s : List ℤ}, s.Nodup → ∀ {d : ℤ}, d ∈ s →
    (s.filter fun x => d ≤ x).length = 1 + (s.filter fun x => d + 1 ≤ x).length := by
  intro s
  induction s with
  | nil => intro _ d hd; simp at hd
  | cons a t ih =>
    intro hnd d hd
    rcases List.nodup_cons.mp hnd with ⟨hat, hndt⟩
    rcases List.mem_cons.mp hd with rfl | hdt
    · rw [List.filter_cons, List.filter_cons]
      rw [if_pos (by simp), if_neg (by simp)]
      have hft : t.filter (fun x => decide (d ≤ x)) = t.filter (fun x => decide (d + 1 ≤ x)) := by
        apply List.filter_congr
        intro x hx
        have hxd : x ≠ d := fun hc => hat (hc ▸ hx)
        simp only [decide_eq_decide]
        omega
      rw [hft]
      simp
      omega
    · rw [List.filter_cons, List.filter_cons]
      have had : a ≠ d := fun hc => hat (hc ▸ hdt)
      by_cases hda : d ≤ a
      · rw [if_pos (by simpa using hda), if_pos (by simp; omega)]
        simp only [List.length_cons]
        rw [ih hndt hdt]
        omega
      · rw [if_neg (by simpa using hda), if_neg (by simp; omega)]
        exact ih hndt hdt

theorem runLenAux_fuel {s : List ℤ} (hnd : s.Nodup) :
    ∀ (n m : ℕ) (d : ℤ), (s.filter fun x => d ≤ x).length ≤ n →
    (s.filter fun x => d ≤ x).length ≤ m → runLenAux n s d = runLenAux m s d := by
  intro n
  induction n with
  | zero =>
    intro m d h0 _
    have hd : d ∉ s := by
      intro hc
      have : d ∈ s.filter fun x => d ≤ x := List.mem_filter.mpr ⟨hc, by simp⟩
      have := List.length_pos.mpr (List.ne_nil_of_mem this)
      omega
    cases m with
    | zero => rfl
    | succ m => rw [runLenAux, runLenAux, if_neg hd]
  | succ n ih =>
    intro m d hn hm
    by_cases hd : d ∈ s
    · have hcount := countGe_succ hnd hd
      cases m with
      | zero =>
        exfalso
        have : d ∈ s.filter fun x => d ≤ x := List.mem_filter.mpr ⟨hd, by simp⟩
        have := List.length_pos.mpr (List.ne_nil_of_mem this)
        omega
      | succ m =>
        rw [runLenAux, runLenAux, if_pos hd, if_pos hd]
        rw [ih m (d + 1) (by omega) (by omega)]
    · cases m with
      | zero =>
        rw [runLenAux, runLenAux, if_neg hd]
      | succ m =>
        rw [runLenAux, runLenAux, if_neg hd, if_neg hd]

theorem runLenAux_cons_gt {a : ℤ} {t : List ℤ} :
    ∀ (n : ℕ) (b : ℤ), a < b → runLenAux n (a :: t) b = runLenAux n t b := by
  intro n
  induction n with
  | zero => intro b _; rfl
  | succ n ih =>
    intro b hab
    rw [runLenAux, runLenAux]
    have hmem : b ∈ a :: t ↔ b ∈ t := by
      constructor
      · intro h
        rcases List.mem_cons.mp h with rfl | h
        · omega
        · exact h
      · intro h; exact List.mem_cons.mpr (Or.inr h)
    by_cases hb : b ∈ t
    · rw [if_pos (hmem.mpr hb), if_pos hb, ih (b + 1) (by omega)]
    · rw [if_neg (fun hc => hb (hmem.mp hc)), if_neg hb]

theorem chainLen_eq_runLenAux :
    ∀ (post pre : List ℤ) (a : ℤ), (pre ++ a :: post).Pairwise (fun x y => x < y) →
    ∀ n : ℕ, post.length + 1 ≤ n →
    runLenAux n (pre ++ a :: post) a = 1 + chainLen a post := by
  intro post
  induction post with
  | nil =>
    intro pre a hp n hn
    cases n with
    | zero => omega
    | succ k =>
      rw [runLenAux, if_pos (by simp)]
      have hnotin : a + 1 ∉ pre ++ a :: ([] : List ℤ) := by
        intro hc
        rcases List.mem_append.mp hc with hc | hc
        · obtain ⟨_, _, hcross⟩ := List.pairwise_append.mp hp
          have := hcross _ hc a (by simp)
          omega
        · simp at hc
      have hz : runLenAux k (pre ++ a :: ([] : List ℤ)) (a + 1) = 0 := by
        cases k with
        | zero => rfl
        | succ k' => rw [runLenAux, if_neg hnotin]
      rw [hz, chainLen]
  | cons b post' ih =>
    intro pre a hp n hn
    cases n with
    | zero => simp at hn
    | succ k =>
      rw [runLenAux, if_pos (by simp)]
      obtain ⟨hpre, hsuf, hcross⟩ := List.pairwise_append.mp hp
      obtain ⟨ha_lt, hsuf'⟩ := List.pairwise_cons.mp hsuf
      obtain ⟨hb_lt, _⟩ := List.pairwise_cons.mp hsuf'
      have hab : a < b := ha_lt b (by simp)
      by_cases hb : b = a + 1
      · subst hb
        rw [chainLen, if_pos rfl]
        have hre : pre ++ a :: (a + 1) :: post' = (pre ++ [a]) ++ (a + 1) :: post' := by simp
        have hp' : ((pre ++ [a]) ++ (a + 1) :: post').Pairwise (fun x y => x < y) := by
          rw [← hre]; exact hp
        have hlen : post'.length + 1 ≤ k := by
          simp only [List.length_cons] at hn
          omega
        rw [hre, ih (pre ++ [a]) (a + 1) hp' k hlen]
      · rw [chainLen, if_neg hb]
        have hnotin : a + 1 ∉ pre ++ a :: b :: post' := by
          intro hc
          rcases List.mem_append.mp hc with hc | hc
          · have := hcross _ hc a (by simp)
            omega
          · rcases List.mem_cons.mp hc with hc | hc
            · omega
            · rcases List.mem_cons.mp hc with hc | hc
              · exact hb hc.symm
              · have := hb_lt _ hc
                omega
        have hz : runLenAux k (pre ++ a :: b :: post') (a + 1) = 0 := by
          cases k with
          | zero => rfl
          | succ k' => rw [runLenAux, if_neg hnotin]
        rw [hz]

theorem bestRun_eq_lcr :
    ∀ L : List ℤ, L.Pairwise (fun x y => x < y) → bestRun L = longestConsecutiveRun L := by
  intro L
  induction L with
  | nil => intro _; rfl
  | cons a t ih =>
    intro hp
    obtain ⟨hat, hpt⟩ := List.pairwise_cons.mp hp
    have hnd_t : t.Nodup := hpt.nodup
    rw [bestRun, longestConsecutiveRun, List.map_cons, List.foldr_cons]
    have h1 : runLenAux (a :: t).length (a :: t) a = 1 + chainLen a t := by
      have := chainLen_eq_runLenAux t [] a (by simpa using hp) (a :: t).length (by simp)
      simpa using this
    have h2 : t.map (fun d => runLenAux (a :: t).length (a :: t) d) =
        t.map (fun d => runLenAux t.length t d) := by
      apply List.map_eq_map_iff.mpr
      intro b hb
      have hab : a < b := hat b hb
      rw [runLenAux_cons_gt _ b hab]
      exact runLenAux_fuel hnd_t _ _ b
        (le_trans (List.length_filter_le _ _) (by simp))
        (List.length_filter_le _ _)
    rw [h1, h2, ih hpt, longestConsecutiveRun]

theorem lcr_perm {s s' : List ℤ} (h : List.Perm s s') :
    longestConsecutiveRun s = longestConsecutiveRun s' := by
  rw [longestConsecutiveRun, longestConsecutiveRun]
  have hmem : ∀ x : ℤ, x ∈ s ↔ x ∈ s' := fun x => h.mem_iff
  have hmap : s'.map (fun d => runLenAux s.length s d) =
      s'.map (fun d => runLenAux s'.length s' d) := by
    apply List.map_eq_map_iff.mpr
    intro b _
    rw [h.length_eq, runLenAux_congr hmem]
  have hperm2 : List.Perm (s.map fun d => runLenAux s.length s d)
      (s'.map fun d => runLenAux s'.length s' d) := by
    rw [← hmap]
    exact h.map _
  haveI : Std.Commutative (fun (a b : ℕ) => max a b) := ⟨fun a b => Nat.max_comm a b⟩
  haveI : LeftCommutative (fun (a b : ℕ) => max a b) := ⟨fun a b c => Nat.max_left_comm a b c⟩
  exact hperm2.foldr_eq 0

/-! ### Bridging the string walk to the integer walk -/

theorem gapIsOne_eq {s c : String} {a b : ℤ} (hs : parseDate s = some a)
    (hc : parseDate c = some b) :
    (gapIsOne (getTimeMs s) (getTimeMs c) = true) ↔ b = a + 1 := by
  rw [getTimeMs, getTimeMs, hs, hc]
  exact gapIsOne_mul a b

theorem streakGo_eq_walkZ :
    ∀ (rest : List String) (prev : String) (streak maxS : ℕ),
    (parseDate prev).isSome → (∀ s ∈ rest, (parseDate s).isSome) →
    streakGo prev rest streak maxS = walkZ (dayOf prev) (rest.map dayOf) streak maxS := by
  intro rest
  induction rest with
  | nil => intro prev streak maxS _ _; rfl
  | cons c rest' ih =>
    intro prev streak maxS hprev hrest
    rcases Option.isSome_iff_exists.mp hprev with ⟨a, ha⟩
    rcases Option.isSome_iff_exists.mp (hrest c (by simp)) with ⟨b, hb⟩
    have hda : dayOf prev = a := by rw [dayOf, ha]; rfl
    have hdb : dayOf c = b := by rw [dayOf, hb]; rfl
    rw [streakGo, List.map_cons, walkZ]
    by_cases hgap : gapIsOne (getTimeMs prev) (getTimeMs c) = true
    · rw [if_pos hgap]
      have hb1 : b = a + 1 := (gapIsOne_eq ha hb).mp hgap
      rw [if_pos (by rw [hda, hdb, hb1])]
      exact ih c _ _ (by rw [hb]; rfl) (fun s hs => hrest s (by simp [hs]))
    · rw [if_neg hgap]
      have hne : ¬(dayOf c = dayOf prev + 1) := by
        rw [hda, hdb]
        intro hc'
        exact hgap ((gapIsOne_eq ha hb).mpr hc')
      rw [if_neg hne]
      exact ih c _ _ (by rw [hb]; rfl) (fun s hs => hrest s (by simp [hs]))

theorem streak_core (games : List Game)
    (hvalid : ∀ g ∈ games, (parseDate g.date).isSome) :
    computeDaysWorkedStreak games =
      longestConsecutiveRun ((games.filterMap fun g => parseDate g.date).dedup) := by
  have hF1 : ∀ s ∈ sortLe strLe (dedupFirst [] (games.map fun g => g.date)),
      (parseDate s).isSome := by
    intro s hs
    have hs' := (mem_dedupFirst.mp (mem_sortLe.mp hs)).1
    rcases List.mem_map.mp hs' with ⟨g, hg, rfl⟩
    exact hvalid g hg
  have hF2 : (sortLe strLe (dedupFirst [] (games.map fun g => g.date))).Nodup :=
    (sortLe_perm strLe _).nodup_iff.mpr (nodup_dedupFirst _ _)
  have hF3 : (sortLe strLe (dedupFirst [] (games.map fun g => g.date))).Pairwise
      (fun x y => strLe x y = true) :=
    sortLe_pairwise (fun a _ b _ => strLe_total a b)
      (fun a _ b _ c _ h1 h2 => strLe_trans a b c h1 h2)
  have hF4 : ((sortLe strLe (dedupFirst [] (games.map fun g => g.date))).map dayOf).Pairwise
      (fun x y => x < y) := by
    rw [List.pairwise_map]
    refine (hF3.and hF2).imp_of_mem ?_
    intro s t hsm htm hst
    obtain ⟨hle, hne⟩ := hst
    rcases Option.isSome_iff_exists.mp (hF1 s hsm) with ⟨a, ha⟩
    rcases Option.isSome_iff_exists.mp (hF1 t htm) with ⟨b, hb⟩
    have : a < b := parseDate_lt_of_strLe ha hb hle hne
    rw [dayOf, dayOf, ha, hb]
    simpa using this
  rw [computeDaysWorkedStreak, streakOfDates]
  rcases hsort : sortLe strLe (dedupFirst [] (games.map fun g => g.date)) with _ | ⟨d, rest⟩
  · have hdates : games.map (fun g => g.date) = [] := by
      have hperm := sortLe_perm strLe (dedupFirst [] (games.map fun g => g.date))
      rw [hsort] at hperm
      have hded : dedupFirst [] (games.map fun g => g.date) = [] := by
        have := hperm.length_eq
        simpa using List.length_eq_zero.mp this.symm
      cases hmap : games.map (fun g => g.date) with
      | nil => rfl
      | cons a l =>
        rw [hmap] at hded
        simp [dedupFirst] at hded
    have hgames : games = [] := by
      cases games with
      | nil => rfl
      | cons g gs => simp at hdates
    subst hgames
    rfl
  · rw [hsort]
    show streakGo d rest 1 1 =
      longestConsecutiveRun ((games.filterMap fun g => parseDate g.date).dedup)
    rw [streakGo_eq_walkZ rest d 1 1 (hF1 d (by rw [hsort]; simp))
      (fun s hs => hF1 s (by rw [hsort]; simp [hs]))]
    rw [walkZ_head_eq_bestRun]
    have hmap_eq : dayOf d :: rest.map dayOf =
        (sortLe strLe (dedupFirst [] (games.map fun g => g.date))).map dayOf := by
      rw [hsort, List.map_cons]
    rw [hmap_eq, bestRun_eq_lcr _ hF4]
    apply lcr_perm
    have hnd1 : ((sortLe strLe (dedupFirst [] (games.map fun g => g.date))).map dayOf).Nodup :=
      hF4.nodup
    have hnd2 : ((games.filterMap fun g => parseDate g.date).dedup).Nodup := List.nodup_dedup _
    rw [List.perm_ext_iff_of_nodup hnd1 hnd2]
    intro x
    constructor
    · intro hx
      rcases List.mem_map.mp hx with ⟨s, hsm, rfl⟩
      have hs' := (mem_dedupFirst.mp (mem_sortLe.mp hsm)).1
      rcases List.mem_map.mp hs' with ⟨g, hg, rfl⟩
      rcases Option.isSome_iff_exists.mp (hvalid g hg) with ⟨a, ha⟩
      rw [List.mem_dedup]
      refine List.mem_filterMap.mpr ⟨g, hg, ?_⟩
      rw [ha, dayOf, ha]
      rfl
    · intro hx
      rcases List.mem_filterMap.mp (List.mem_dedup.mp hx) with ⟨g, hg, hparse⟩
      refine List.mem_map.mpr ⟨g.date, ?_, by rw [dayOf, hparse]; rfl⟩
      rw [mem_sortLe, mem_dedupFirst]
      exact ⟨List.mem_map.mpr ⟨g, hg, rfl⟩, by simp⟩

theorem dedupFirst_all_seen :
    ∀ (l seen : List String), (∀ x ∈ l, x ∈ seen) → dedupFirst seen l = [] := by
  intro l
  induction l with
  | nil => intro seen _; rfl
  | cons a t ih =>
    intro seen h
    rw [dedupFirst, if_pos (h a (by simp))]
    exact ih seen fun x hx => h x (by simp [hx])

theorem dedupFirst_const {l : List String} {dt : String} (hne : l ≠ [])
    (hall : ∀ x ∈ l, x = dt) : dedupFirst [] l = [dt] := by
  cases l with
  | nil => exact absurd rfl hne
  | cons a t =>
    have ha : a = dt := hall a (by simp)
    subst ha
    rw [dedupFirst, if_neg (by simp)]
    rw [dedupFirst_all_seen t [a] fun x hx => by rw [hall x (by simp [hx])]; simp]

/-- C4: with parseable dates, `computeDaysWorkedStreak` equals the length of
the longest run of consecutive calendar days among the distinct parsed dates;
the empty list gives 0, games all on a single date give 1, and the four
example dates give 3. -/
theorem daysWorkedStreak_eq_longestConsecutiveRun :
    (∀ games : List Game, (∀ g ∈ games, (parseDate g.date).isSome) →
      computeDaysWorkedStreak games =
        longestConsecutiveRun ((games.filterMap fun g => parseDate g.date).dedup)) ∧
    computeDaysWorkedStreak [] = 0 ∧
    (∀ (games : List Game) (dt : String), games ≠ [] → (∀ g ∈ games, g.date = dt) →
      computeDaysWorkedStreak games = 1) ∧
    streakOfDates ["2024-01-01", "2024-01-02", "2024-01-03", "2024-01-10"] = 3 := by
  refine ⟨streak_core, rfl, ?_, by decide⟩
  intro games dt hne hall
  rw [computeDaysWorkedStreak, streakOfDates]
  have hmap_ne : games.map (fun g => g.date) ≠ [] :=
    fun hc => hne (List.map_eq_nil_iff.mp hc)
  have hded := dedupFirst_const hmap_ne
    (fun x hx => by
      rcases List.mem_map.mp hx with ⟨g, hg, rfl⟩
      exact hall g hg)
  rw [hded]
  rfl

/-- Witness for C4 on a leap-year month boundary (2024-02-29 and 2024-03-01
are consecutive calendar days). -/
theorem daysWorkedStreak_eq_longestConsecutiveRun_witness :
    (∀ g ∈ [(⟨"2024-03-01", "", ((0 : ℝ), (0 : ℝ)), ⟨"T"⟩, ⟨"T"⟩⟩ : Game),
        ⟨"2024-02-29", "", ((0 : ℝ), (0 : ℝ)), ⟨"T"⟩, ⟨"T"⟩⟩], (parseDate g.date).isSome) ∧
    computeDaysWorkedStreak [(⟨"2024-03-01", "", ((0 : ℝ), (0 : ℝ)), ⟨"T"⟩, ⟨"T"⟩⟩ : Game),
        ⟨"2024-02-29", "", ((0 : ℝ), (0 : ℝ)), ⟨"T"⟩, ⟨"T"⟩⟩] =
      longestConsecutiveRun (([(⟨"2024-03-01", "", ((0 : ℝ), (0 : ℝ)), ⟨"T"⟩, ⟨"T"⟩⟩ : Game),
        ⟨"2024-02-29", "", ((0 : ℝ), (0 : ℝ)), ⟨"T"⟩,
          ⟨"T"⟩⟩].filterMap fun g => parseDate g.date).dedup) :=
  ⟨by decide, daysWorkedStreak_eq_longestConsecutiveRun.1 _ (by decide)⟩
